import Mathlib

/-!
# Rabin-Karp plagiarism detector: embedding of `Source.cpp`

The C++ program is embedded shallowly.

* A `std::string` is a `List Int` of `char` values. `char` is the signed 8-bit
  type of the x86 targets, so a well-formed text has all its values in
  `-128 .. 127` (`IsText`); a text of 7-bit characters has them in `0 .. 127`
  (`SevenBit`).
* `int` is `Int`; every `int` product, sum and difference that enters a hash
  is reduced with `wrap32` (two's complement wrap-around), and `%` is the
  truncating remainder of C++ (`Int.tmod`, sign of the dividend). Loop counters
  and indices are at most one past the length of a text and are left exact.
* Code that can fail returns `Except Fault _`: a raw access outside a buffer,
  a remainder by zero, and the `std::out_of_range` exception of `substr`.
* The hasher object is the record `RabinKarp`; a method that changes the
  member buffer `prefixHashes` returns the new record next to its result.
  The mutex has no sequential meaning and is left out.
* `computeHashExact` and `precomputeHashesExact` are the same loops with no
  reduction to 32 bits; `largeText1` and `largeText2` are the documents of
  `testScalability`.
-/

namespace RabinKarpSpec

/-- Ways in which a run of the program can stop without a result. -/
inductive Fault where
  /-- `operator[]` on a `std::string` or `std::vector` outside its storage. -/
  | outOfBounds
  /-- `x % 0`, or `INT_MIN % -1`. -/
  | divide
  /-- `std::out_of_range`, thrown by `std::string::substr`. -/
  | substrRange
  deriving DecidableEq, Repr

instance {ε α : Type} [DecidableEq ε] [DecidableEq α] : DecidableEq (Except ε α)
  | .ok a, .ok b => if h : a = b then isTrue (by rw [h]) else isFalse (fun h' => h (by cases h'; rfl))
  | .error a, .error b =>
    if h : a = b then isTrue (by rw [h]) else isFalse (fun h' => h (by cases h'; rfl))
  | .ok _, .error _ => isFalse (fun h => by cases h)
  | .error _, .ok _ => isFalse (fun h => by cases h)

/-- `const int PRIME1 = 101;` -/
def PRIME1 : Int := 101

/-- `const int PRIME2 = 103;` -/
def PRIME2 : Int := 103

/-- The data members of `class RabinKarp` (the mutex apart). -/
structure RabinKarp where
  prime : Int
  base : Int
  prefixHashes : List Int
  deriving DecidableEq, Repr

/-- The constructor `RabinKarp(int prime, int base)`: the buffer starts empty. -/
def RabinKarp.new (prime base : Int) : RabinKarp := ⟨prime, base, []⟩

/-- The hasher `RabinKarp rk;` built with the default arguments
`prime = PRIME1`, `base = 256`. -/
def defaultHasher : RabinKarp := RabinKarp.new PRIME1 256

/-- Every value is a `char` value. -/
def IsText (s : List Int) : Prop := ∀ c ∈ s, -128 ≤ c ∧ c ≤ 127

/-- Every value is a 7-bit character. -/
def SevenBit (s : List Int) : Prop := ∀ c ∈ s, 0 ≤ c ∧ c ≤ 127

instance (s : List Int) : Decidable (IsText s) := by unfold IsText; infer_instance

instance (s : List Int) : Decidable (SevenBit s) := by unfold SevenBit; infer_instance

/-- The `char` values of an ASCII string literal. -/
def str (s : String) : List Int := s.toList.map (fun c => (c.toNat : Int))

/-- Reduction of an exact integer to the `int` it is stored as. -/
def wrap32 (x : Int) : Int := (x + 2147483648) % 4294967296 - 2147483648

/-- The `%` of C++ on `int`. -/
def cmod (x m : Int) : Except Fault Int :=
  if m = 0 ∨ (x = -2147483648 ∧ m = -1) then .error .divide else .ok (Int.tmod x m)

/-- `text[i]` on a `const std::string&`: the characters, and the terminator at
`text[text.size()]`. -/
def charAt (text : List Int) (i : Int) : Except Fault Int :=
  if 0 ≤ i ∧ i < text.length then .ok (text.getD i.toNat 0)
  else if i = text.length then .ok 0
  else .error .outOfBounds

/-- `v[i]` read on a `std::vector<int>`. -/
def vecGet (v : List Int) (i : Int) : Except Fault Int :=
  if 0 ≤ i ∧ i < v.length then .ok (v.getD i.toNat 0) else .error .outOfBounds

/-- `v[i] = x` on a `std::vector<int>`. -/
def vecSet (v : List Int) (i : Int) (x : Int) : Except Fault (List Int) :=
  if 0 ≤ i ∧ i < v.length then .ok (v.set i.toNat x) else .error .outOfBounds

/-- `v.resize(n, 0)`: the first `n` entries are kept, missing ones are `0`. -/
def resize (v : List Int) (n : Nat) : List Int :=
  v.take n ++ List.replicate (n - v.length) 0

/-- `text.substr(pos, count)` with `int` arguments, which are converted to
`size_t`: a negative `pos` is past the end, a negative `count` reaches the end. -/
def substr (text : List Int) (pos count : Int) : Except Fault (List Int) :=
  if pos < 0 ∨ (text.length : Int) < pos then .error .substrRange
  else if count < 0 then .ok (text.drop pos.toNat)
  else .ok ((text.drop pos.toNat).take count.toNat)

/-- The loop body of `computeHash`: `hashValue = (hashValue * base + c) % prime`. -/
def hashStep (rk : RabinKarp) (hashValue c : Int) : Except Fault Int :=
  cmod (wrap32 (wrap32 (hashValue * rk.base) + c)) rk.prime

/-- `RabinKarp::computeHash`. -/
def computeHash (rk : RabinKarp) (s : List Int) : Except Fault Int :=
  s.foldlM (hashStep rk) 0

/-- Body of the first loop of `precomputeHashes` at index `i`; the state is
`(hashValue, basePower)`. -/
def firstWindowStep (rk : RabinKarp) (text : List Int) (length : Int)
    (st : Int × Int) (i : Nat) : Except Fault (Int × Int) := do
  let c ← charAt text i
  let hashValue ← cmod (wrap32 (wrap32 (st.1 * rk.base) + c)) rk.prime
  if (i : Int) < length - 1 then
    let basePower ← cmod (wrap32 (st.2 * rk.base)) rk.prime
    pure (hashValue, basePower)
  else
    pure (hashValue, st.2)

/-- Body of the second loop of `precomputeHashes` at index `i`; the state is
`(hashValue, prefixHashes)`. -/
def rollStep (rk : RabinKarp) (text : List Int) (length basePower : Int)
    (st : Int × List Int) (i : Nat) : Except Fault (Int × List Int) := do
  let out ← charAt text ((i : Int) - length)
  let t ← cmod (wrap32 (out * basePower)) rk.prime
  let h1 ← cmod (wrap32 (wrap32 (st.1 - t) + rk.prime)) rk.prime
  let c ← charAt text i
  let h2 ← cmod (wrap32 (wrap32 (h1 * rk.base) + c)) rk.prime
  let buf ← vecSet st.2 ((i : Int) + 1) h2
  pure (h2, buf)

/-- `RabinKarp::precomputeHashes`: the returned vector (a copy of the member
buffer) and the hasher after the call.

`for (int i = 0; i < length; ++i)` runs over `0 .. length - 1` and not at all
for `length ≤ 0`. `for (int i = length; i < text.length(); ++i)` compares in
`size_t`; it is reached only when the write `prefixHashes[length]` was in
bounds, so with `0 ≤ length ≤ text.length()`, and runs over
`length .. text.length() - 1`. -/
def precomputeHashes (rk : RabinKarp) (text : List Int) (length : Int) :
    Except Fault (List Int × RabinKarp) := do
  let buf0 := resize rk.prefixHashes (text.length + 1)
  let (hashValue, basePower) ←
    (List.range length.toNat).foldlM (firstWindowStep rk text length) (0, 1)
  let buf1 ← vecSet buf0 length hashValue
  let (_, buf2) ←
    (List.range' length.toNat (text.length - length.toNat)).foldlM
      (rollStep rk text length basePower) (hashValue, buf1)
  pure (buf2, ⟨rk.prime, rk.base, buf2⟩)

/-- `RabinKarp::detectCollision`; the parameter `end` of the source is `stop`
here and, as in the source, is not used. -/
def detectCollision (rk : RabinKarp) (text : List Int) (start stop hashValue length : Int) :
    Except Fault Bool := do
  let _ := stop
  let computedHash ← computeHash rk (← substr text start length)
  pure (decide (computedHash = hashValue))

/-- `std::unordered_map<int, std::vector<int>>` as an association list. -/
abbrev HashMap := List (Int × List Int)

/-- `hashMap.find(k)`, with `none` for `end()`. -/
def HashMap.find (m : HashMap) (k : Int) : Option (List Int) := m.lookup k

/-- `hashMap[k] = v`: whatever was stored under `k` is replaced. -/
def HashMap.assign (m : HashMap) (k : Int) (v : List Int) : HashMap :=
  (k, v) :: m.filter (fun e => e.1 != k)

/-- Body of the index-building loop of `detectPlagiarism`:
`hashMap[paper1Hashes[i]] = { i };`. -/
def indexStep (paper1Hashes : List Int) (hashMap : HashMap) (i : Nat) :
    Except Fault HashMap := do
  let h ← vecGet paper1Hashes i
  pure (hashMap.assign h [(i : Int)])

/-- The loop over one bucket in `detectPlagiarism`: every `startIdx` for which
`detectCollision(paper2, i, i + substringLength, hashValue, substringLength)`
holds adds a detection `(startIdx, i)`; the line printed shows `i`. -/
def bucketLoop (rk : RabinKarp) (paper2 : List Int) (substringLength : Int) (i : Nat)
    (hashValue : Int) (out : List (Int × Int)) (startIdx : Int) :
    Except Fault (List (Int × Int)) := do
  if ← detectCollision rk paper2 i ((i : Int) + substringLength) hashValue substringLength then
    pure (out ++ [(startIdx, (i : Int))])
  else
    pure out

/-- Body of the comparison loop of `detectPlagiarism` at index `i`. -/
def probeStep (rk : RabinKarp) (paper2 paper2Hashes : List Int) (hashMap : HashMap)
    (substringLength : Int) (out : List (Int × Int)) (i : Nat) :
    Except Fault (List (Int × Int)) := do
  let hashValue ← vecGet paper2Hashes i
  match hashMap.find hashValue with
  | none => pure out
  | some bucket => bucket.foldlM (bucketLoop rk paper2 substringLength i hashValue) out

/-- The index-building loop of `detectPlagiarism`, from an empty map. -/
def buildIndex (paper1 paper1Hashes : List Int) (substringLength : Int) :
    Except Fault HashMap :=
  (List.range (((paper1.length : Int) - substringLength).toNat + 1)).foldlM
    (indexStep paper1Hashes) []

/-- The comparison loop of `detectPlagiarism`. -/
def probeAll (rk : RabinKarp) (paper2 paper2Hashes : List Int) (hashMap : HashMap)
    (substringLength : Int) : Except Fault (List (Int × Int)) :=
  (List.range (((paper2.length : Int) - substringLength).toNat + 1)).foldlM
    (probeStep rk paper2 paper2Hashes hashMap substringLength) []

/-- `detectPlagiarism`: the detections in the order they are printed, each as
`(startIdx, i)` with `i` the printed position.

Both loops are `for (int i = 0; i <= paper.size() - substringLength; ++i)`
with the bound computed in `size_t`; they are reached only when both calls of
`precomputeHashes` returned, so with `0 ≤ substringLength ≤ paper.size()`, and
run over `0 .. paper.size() - substringLength`. -/
def detectPlagiarism (paper1 paper2 : List Int) (substringLength : Int) :
    Except Fault (List (Int × Int)) := do
  let rk := RabinKarp.new PRIME1 256
  let (paper1Hashes, rk) ← precomputeHashes rk paper1 substringLength
  let (paper2Hashes, rk) ← precomputeHashes rk paper2 substringLength
  let hashMap ← buildIndex paper1 paper1Hashes substringLength
  probeAll rk paper2 paper2Hashes hashMap substringLength

/-- The positions `detectPlagiarism` prints, in order. -/
def printedPositions (paper1 paper2 : List Int) (substringLength : Int) :
    Except Fault (List Int) :=
  (detectPlagiarism paper1 paper2 substringLength).map (fun ds => ds.map Prod.snd)

/-- The value one step of `computeHash` leaves in `hashValue`. -/
def hashStepVal (rk : RabinKarp) (h c : Int) : Int :=
  Int.tmod (wrap32 (wrap32 (h * rk.base) + c)) rk.prime

/-- The value `computeHash` returns when no remainder faults. -/
def hashVal (rk : RabinKarp) (s : List Int) : Int := s.foldl (hashStepVal rk) 0

/-- The value of `basePower` after `k` multiplications in the first loop of
`precomputeHashes`. -/
def basePowerVal (rk : RabinKarp) : Nat → Int
  | 0 => 1
  | k + 1 => Int.tmod (wrap32 (basePowerVal rk k * rk.base)) rk.prime

/-- The value one pass of the second loop of `precomputeHashes` leaves in
`hashValue`, from the previous value `h`, the character `out` that leaves the
window and the character `c` that enters it. -/
def rollVal (rk : RabinKarp) (basePower h out c : Int) : Int :=
  hashStepVal rk
    (Int.tmod (wrap32 (wrap32 (h - Int.tmod (wrap32 (out * basePower)) rk.prime) + rk.prime))
      rk.prime) c

/-- The value of `hashValue` after the first loop of `precomputeHashes` (`m = 0`)
and after `m` passes of the second loop. -/
def windowVal (rk : RabinKarp) (text : List Int) (L : Nat) : Nat → Int
  | 0 => hashVal rk (text.take L)
  | m + 1 =>
    rollVal rk (basePowerVal rk (L - 1)) (windowVal rk text L m) (text.getD m 0)
      (text.getD (m + L) 0)

/-- The modulus is one on which `%` never faults. -/
def GoodPrime (rk : RabinKarp) : Prop := rk.prime ≠ 0 ∧ rk.prime ≠ -1

/-- The hasher's modulus and base keep every `int` the hasher forms on a text of
7-bit characters inside the 32-bit range. -/
def NoOverflow (rk : RabinKarp) : Prop :=
  2 ≤ rk.prime ∧ 0 ≤ rk.base ∧ (rk.prime - 1) * rk.base + 127 ≤ 2147483647 ∧
    127 * (rk.prime - 1) ≤ 2147483647

instance (rk : RabinKarp) : Decidable (NoOverflow rk) := by unfold NoOverflow; infer_instance

/-- Horner's rule in exact arithmetic: `Σ s[k] * b ^ (len - 1 - k)`. -/
def horner (b : Int) (s : List Int) : Int := s.foldl (fun a c => a * b + c) 0

/-- The hash formula as the specification words it:
`Σ_{k < len} s[k] · b^(len − 1 − k) mod p`. -/
def specPolynomialHash (p b : Int) (s : List Int) : Int :=
  ((List.range s.length).map (fun k => s.getD k 0 * b ^ (s.length - 1 - k))).sum % p

/-- Horner's iteration as the specification words it: `hash = (hash·b + s[k]) mod p`. -/
def specHornerHash (p b : Int) (s : List Int) : Int :=
  s.foldl (fun hash c => (hash * b + c) % p) 0

/-- A value that a signed 32-bit `int` holds. -/
def InInt32 (x : Int) : Prop := -2147483648 ≤ x ∧ x ≤ 2147483647

/-- The loop body of `computeHash` in exact integer arithmetic. -/
def hashStepExact (rk : RabinKarp) (hashValue c : Int) : Except Fault Int :=
  cmod (hashValue * rk.base + c) rk.prime

/-- `RabinKarp::computeHash` in exact integer arithmetic. -/
def computeHashExact (rk : RabinKarp) (s : List Int) : Except Fault Int :=
  s.foldlM (hashStepExact rk) 0

/-- Body of the first loop of `precomputeHashes` in exact integer arithmetic. -/
def firstWindowStepExact (rk : RabinKarp) (text : List Int) (length : Int)
    (st : Int × Int) (i : Nat) : Except Fault (Int × Int) := do
  let c ← charAt text i
  let hashValue ← cmod (st.1 * rk.base + c) rk.prime
  if (i : Int) < length - 1 then
    let basePower ← cmod (st.2 * rk.base) rk.prime
    pure (hashValue, basePower)
  else
    pure (hashValue, st.2)

/-- Body of the second loop of `precomputeHashes` in exact integer arithmetic. -/
def rollStepExact (rk : RabinKarp) (text : List Int) (length basePower : Int)
    (st : Int × List Int) (i : Nat) : Except Fault (Int × List Int) := do
  let out ← charAt text ((i : Int) - length)
  let t ← cmod (out * basePower) rk.prime
  let h1 ← cmod (st.1 - t + rk.prime) rk.prime
  let c ← charAt text i
  let h2 ← cmod (h1 * rk.base + c) rk.prime
  let buf ← vecSet st.2 ((i : Int) + 1) h2
  pure (h2, buf)

/-- `RabinKarp::precomputeHashes` in exact integer arithmetic. -/
def precomputeHashesExact (rk : RabinKarp) (text : List Int) (length : Int) :
    Except Fault (List Int × RabinKarp) := do
  let buf0 := resize rk.prefixHashes (text.length + 1)
  let (hashValue, basePower) ←
    (List.range length.toNat).foldlM (firstWindowStepExact rk text length) (0, 1)
  let buf1 ← vecSet buf0 length hashValue
  let (_, buf2) ←
    (List.range' length.toNat (text.length - length.toNat)).foldlM
      (rollStepExact rk text length basePower) (hashValue, buf1)
  pure (buf2, ⟨rk.prime, rk.base, buf2⟩)

/-- The offset the index-building loop of `detectPlagiarism` leaves under the
key `k` after visiting the offsets `l`: the last of them whose recorded hash is
`k`. -/
def lastOffset (hashes : List Int) (l : List Nat) (k : Int) : Option Nat :=
  l.reverse.find? (fun i => decide (hashes.getD i 0 = k))

/-- What the pass of the comparison loop of `detectPlagiarism` at position `j`
adds to the detections when no access faults. -/
def detectionsAt (rk : RabinKarp) (paper2 paper2Hashes : List Int) (hashMap : HashMap)
    (L : Nat) (j : Nat) : List (Int × Int) :=
  match hashMap.find (paper2Hashes.getD j 0) with
  | none => []
  | some bucket =>
    if hashVal rk ((paper2.drop j).take L) = paper2Hashes.getD j 0 then
      bucket.map (fun startIdx => (startIdx, (j : Int)))
    else []

/-- What the passes of the comparison loop at the positions `l` add to the
detections. -/
def detections (rk : RabinKarp) (paper2 paper2Hashes : List Int) (hashMap : HashMap)
    (L : Nat) : List Nat → List (Int × Int)
  | [] => []
  | j :: l =>
    detectionsAt rk paper2 paper2Hashes hashMap L j ++
      detections rk paper2 paper2Hashes hashMap L l

/-- The value at raw index `k` of the hash buffer in `detectPlagiarism`: `0`
below the window length, the hash of the window that starts at offset `k - L`
from there on. -/
def rawHash (text : List Int) (L k : Nat) : Int :=
  if k < L then 0 else hashVal defaultHasher ((text.drop (k - L)).take L)

/-- The text `largeText1` of `testScalability`: 100,000 times `'a'`. -/
def largeText1 : List Int := List.replicate 100000 97

/-- The text `largeText2` of `testScalability`: `largeText1` with `'b'` at
offset 50,000. -/
def largeText2 : List Int := largeText1.set 50000 98

/-! ## The loops of the hasher, without faults -/

theorem bind_ok {α β : Type} (a : α) (f : α → Except Fault β) :
    (Except.ok a >>= f) = f a := rfl

theorem bind_error {α β : Type} (e : Fault) (f : α → Except Fault β) :
    (Except.error e >>= f) = Except.error e := rfl

theorem cmod_ok {rk : RabinKarp} (hp : GoodPrime rk) (x : Int) :
    cmod x rk.prime = .ok (Int.tmod x rk.prime) := by
  unfold cmod
  rw [if_neg]
  rintro (h | ⟨_, h⟩)
  · exact hp.1 h
  · exact hp.2 h

theorem charAt_ok {text : List Int} {i : Nat} (h : i < text.length) :
    charAt text (i : Int) = .ok (text.getD i 0) := by
  unfold charAt
  rw [if_pos ⟨by omega, by omega⟩]
  simp

theorem vecGet_ok {v : List Int} {i : Nat} (h : i < v.length) :
    vecGet v (i : Int) = .ok (v.getD i 0) := by
  unfold vecGet
  rw [if_pos ⟨by omega, by omega⟩]
  simp

theorem vecSet_ok {v : List Int} {i : Nat} (h : i < v.length) (x : Int) :
    vecSet v (i : Int) x = .ok (v.set i x) := by
  unfold vecSet
  rw [if_pos ⟨by omega, by omega⟩]
  simp

theorem length_resize (v : List Int) (n : Nat) : (resize v n).length = n := by
  unfold resize
  simp
  omega

theorem hashStep_ok {rk : RabinKarp} (hp : GoodPrime rk) (h c : Int) :
    hashStep rk h c = .ok (hashStepVal rk h c) := by
  unfold hashStep hashStepVal
  exact cmod_ok hp _

theorem foldlM_hashStep {rk : RabinKarp} (hp : GoodPrime rk) (s : List Int) (h : Int) :
    s.foldlM (hashStep rk) h = .ok (s.foldl (hashStepVal rk) h) := by
  induction s generalizing h with
  | nil => rfl
  | cons c s ih =>
    rw [List.foldlM_cons, hashStep_ok hp]
    exact ih _

theorem computeHash_ok {rk : RabinKarp} (hp : GoodPrime rk) (s : List Int) :
    computeHash rk s = .ok (hashVal rk s) :=
  foldlM_hashStep hp s 0

theorem take_succ_getD (text : List Int) {k : Nat} (h : k < text.length) :
    text.take (k + 1) = text.take k ++ [text.getD k 0] := by
  rw [List.take_succ]
  simp [List.getElem?_eq_getElem h]

theorem firstWindowStep_ok {rk : RabinKarp} (hp : GoodPrime rk) {text : List Int}
    {L k : Nat} (hk : k < text.length) (h bp : Int) :
    firstWindowStep rk text (L : Int) (h, bp) k =
      .ok (hashStepVal rk h (text.getD k 0),
        if k + 1 < L then Int.tmod (wrap32 (bp * rk.base)) rk.prime else bp) := by
  unfold firstWindowStep
  rw [charAt_ok hk]
  simp only [cmod_ok hp]
  by_cases hlt : k + 1 < L
  · have : ((k : Int) < (L : Int) - 1) := by omega
    simp [this, hlt, hashStepVal]
    rfl
  · have : ¬ ((k : Int) < (L : Int) - 1) := by omega
    simp [this, hlt, hashStepVal]
    rfl

theorem firstLoop_ok {rk : RabinKarp} (hp : GoodPrime rk) (text : List Int) (L : Nat) :
    ∀ k, k ≤ L → k ≤ text.length →
      (List.range k).foldlM (firstWindowStep rk text (L : Int)) (0, 1) =
        .ok (hashVal rk (text.take k), basePowerVal rk (min k (L - 1))) := by
  intro k
  induction k with
  | zero =>
    intro _ _
    simp [hashVal, basePowerVal]
    rfl
  | succ k ih =>
    intro hkL hkn
    rw [List.range_succ, List.foldlM_append, ih (by omega) (by omega)]
    rw [bind_ok, List.foldlM_cons, firstWindowStep_ok hp (by omega), bind_ok, List.foldlM_nil]
    show Except.ok _ = _
    congr 2
    · rw [take_succ_getD text (by omega)]
      unfold hashVal
      rw [List.foldl_append]
      rfl
    · by_cases hlt : k + 1 < L
      · rw [if_pos hlt, show min (k + 1) (L - 1) = (min k (L - 1)) + 1 by omega]
        rfl
      · rw [if_neg hlt]
        congr 1
        omega

theorem rollStep_ok {rk : RabinKarp} (hp : GoodPrime rk) {text : List Int} {L j : Nat}
    (hj : L + j < text.length) (bp h : Int) {buf : List Int} (hbuf : L + j + 1 < buf.length) :
    rollStep rk text (L : Int) bp (h, buf) (L + j) =
      .ok (rollVal rk bp h (text.getD j 0) (text.getD (L + j) 0),
        buf.set (L + j + 1) (rollVal rk bp h (text.getD j 0) (text.getD (L + j) 0))) := by
  unfold rollStep
  have e1 : ((L + j : Nat) : Int) - (L : Int) = (j : Int) := by omega
  have e2 : ((L + j : Nat) : Int) + 1 = ((L + j + 1 : Nat) : Int) := by omega
  rw [e1, e2, charAt_ok (show j < text.length by omega), charAt_ok hj]
  simp only [cmod_ok hp, bind_ok, vecSet_ok hbuf]
  rfl

theorem secondLoop_ok {rk : RabinKarp} (hp : GoodPrime rk) (text : List Int) (L : Nat)
    (buf0 : List Int) (hbuf : buf0.length = text.length + 1) :
    ∀ j, L + j ≤ text.length →
      ∃ b, (List.range' L j).foldlM (rollStep rk text (L : Int) (basePowerVal rk (L - 1)))
            (windowVal rk text L 0, buf0) = .ok (windowVal rk text L j, b) ∧
        b.length = text.length + 1 ∧
        ∀ k, b[k]? = if L < k ∧ k ≤ L + j then some (windowVal rk text L (k - L)) else buf0[k]? := by
  intro j
  induction j with
  | zero =>
    intro _
    refine ⟨buf0, rfl, hbuf, ?_⟩
    intro k
    rw [if_neg]
    omega
  | succ j ih =>
    intro hj
    obtain ⟨b, hb, hlen, hget⟩ := ih (by omega)
    rw [List.range'_concat, List.foldlM_append, hb, bind_ok, Nat.one_mul, List.foldlM_cons,
      rollStep_ok hp (by omega) _ _ (by omega), bind_ok, List.foldlM_nil]
    have hw : rollVal rk (basePowerVal rk (L - 1)) (windowVal rk text L j) (text.getD j 0)
        (text.getD (L + j) 0) = windowVal rk text L (j + 1) := by
      rw [Nat.add_comm L j]
      rfl
    rw [hw]
    refine ⟨b.set (L + j + 1) (windowVal rk text L (j + 1)), rfl, ?_, ?_⟩
    · rw [List.length_set, hlen]
    · intro k
      rw [List.getElem?_set, hget k]
      by_cases hk : L + j + 1 = k
      · rw [if_pos hk, if_pos (by omega), if_pos (by omega)]
        subst hk
        rw [show L + j + 1 - L = j + 1 by omega]
      · rw [if_neg hk]
        by_cases hk2 : L < k ∧ k ≤ L + j
        · rw [if_pos hk2, if_pos (by omega)]
        · rw [if_neg hk2, if_neg (by omega)]

/-- What `precomputeHashes` returns for a window length within the text: the
buffer has `text.length + 1` entries, entry `k` with `L ≤ k` holds the value
of `hashValue` after `k - L` passes of the second loop, and the entries below
`L` are those of the resized member buffer. -/
theorem precomputeHashes_ok {rk : RabinKarp} (hp : GoodPrime rk) (text : List Int) (L : Nat)
    (hL : L ≤ text.length) :
    ∃ hs, precomputeHashes rk text (L : Int) = .ok (hs, ⟨rk.prime, rk.base, hs⟩) ∧
      hs.length = text.length + 1 ∧
      ∀ k, hs[k]? =
        if L ≤ k ∧ k ≤ text.length then some (windowVal rk text L (k - L))
        else (resize rk.prefixHashes (text.length + 1))[k]? := by
  have hlen0 := length_resize rk.prefixHashes (text.length + 1)
  obtain ⟨b, hb, hlen, hget⟩ :=
    secondLoop_ok hp text L ((resize rk.prefixHashes (text.length + 1)).set L (windowVal rk text L 0))
      (by rw [List.length_set, hlen0]) (text.length - L) (by omega)
  refine ⟨b, ?_, hlen, ?_⟩
  · unfold precomputeHashes
    simp only [Int.toNat_ofNat]
    rw [firstLoop_ok hp text L L (le_refl _) hL, bind_ok]
    simp only []
    rw [vecSet_ok (by omega), bind_ok, Nat.min_eq_right (Nat.sub_le _ _)]
    have : hashVal rk (List.take L text) = windowVal rk text L 0 := rfl
    rw [this, hb]
    rfl
  · intro k
    rw [hget k, List.getElem?_set]
    by_cases hk : L < k ∧ k ≤ L + (text.length - L)
    · rw [if_pos hk, if_pos (by omega)]
    · rw [if_neg hk]
      by_cases hk2 : L = k
      · rw [if_pos hk2, if_pos (by omega), if_pos (by omega)]
        subst hk2
        simp
      · rw [if_neg hk2, if_neg (by omega)]

/-! ## Exactness of the rolling update -/

theorem NoOverflow.goodPrime {rk : RabinKarp} (h : NoOverflow rk) : GoodPrime rk := by
  obtain ⟨h2, _⟩ := h
  constructor <;> omega

theorem wrap32_eq {x : Int} (h1 : -2147483648 ≤ x) (h2 : x ≤ 2147483647) : wrap32 x = x := by
  unfold wrap32
  omega

theorem mul_base_bounds {rk : RabinKarp} (hov : NoOverflow rk) {h : Int} (h0 : 0 ≤ h)
    (h1 : h < rk.prime) : 0 ≤ h * rk.base ∧ h * rk.base ≤ (rk.prime - 1) * rk.base := by
  obtain ⟨_, hb, _, _⟩ := hov
  exact ⟨Int.mul_nonneg h0 hb, Int.mul_le_mul_of_nonneg_right (by omega) hb⟩

theorem hashStepVal_eq {rk : RabinKarp} (hov : NoOverflow rk) {h c : Int} (h0 : 0 ≤ h)
    (h1 : h < rk.prime) (c0 : 0 ≤ c) (c1 : c ≤ 127) :
    hashStepVal rk h c = (h * rk.base + c) % rk.prime := by
  obtain ⟨hm0, hm1⟩ := mul_base_bounds hov h0 h1
  obtain ⟨hp, hb, ho1, ho2⟩ := hov
  unfold hashStepVal
  rw [wrap32_eq (x := h * rk.base) (by omega) (by omega),
    wrap32_eq (x := h * rk.base + c) (by omega) (by omega),
    Int.tmod_eq_emod (by omega) (by omega)]

theorem emod_bounds {p : Int} (hp : 2 ≤ p) (x : Int) : 0 ≤ x % p ∧ x % p < p :=
  ⟨Int.emod_nonneg _ (by omega), Int.emod_lt_of_pos _ (by omega)⟩

theorem foldl_hashStepVal {rk : RabinKarp} (hov : NoOverflow rk) (s : List Int) (hs : SevenBit s) :
    ∀ h a : Int, 0 ≤ h → h < rk.prime → h = a % rk.prime →
      s.foldl (hashStepVal rk) h = (s.foldl (fun a c => a * rk.base + c) a) % rk.prime := by
  induction s with
  | nil => intro h a _ _ e; exact e
  | cons c s ih =>
    intro h a h0 h1 e
    have hc := hs c (List.mem_cons_self _ _)
    rw [List.foldl_cons, List.foldl_cons]
    have hstep := hashStepVal_eq hov h0 h1 hc.1 hc.2
    have hb := emod_bounds hov.1 (h * rk.base + c)
    refine ih (fun x hx => hs x (List.mem_cons_of_mem _ hx)) _ _ (hstep ▸ hb.1) (hstep ▸ hb.2) ?_
    rw [hstep, e]
    exact Int.ModEq.add_right c (Int.ModEq.mul_right rk.base (Int.mod_modEq a rk.prime))

theorem hashVal_eq {rk : RabinKarp} (hov : NoOverflow rk) {s : List Int} (hs : SevenBit s) :
    hashVal rk s = horner rk.base s % rk.prime :=
  foldl_hashStepVal hov s hs 0 0 (le_refl _) (by have := hov.1; omega)
    (by rw [Int.zero_emod])

theorem basePowerVal_eq {rk : RabinKarp} (hov : NoOverflow rk) (k : Nat) :
    basePowerVal rk k = rk.base ^ k % rk.prime := by
  induction k with
  | zero =>
    have := hov.1
    show (1 : Int) = 1 % rk.prime
    rw [Int.emod_eq_of_lt (by omega) (by omega)]
  | succ k ih =>
    have hb := emod_bounds hov.1 (rk.base ^ k)
    obtain ⟨hm0, hm1⟩ := mul_base_bounds hov hb.1 hb.2
    obtain ⟨hp, hb0, ho1, ho2⟩ := hov
    show Int.tmod (wrap32 (basePowerVal rk k * rk.base)) rk.prime = _
    rw [ih, wrap32_eq (by omega) (by omega), Int.tmod_eq_emod (by omega) (by omega), pow_succ]
    exact Int.ModEq.mul_right rk.base (Int.mod_modEq _ _)

theorem foldl_horner (b : Int) (w : List Int) (a : Int) :
    w.foldl (fun a c => a * b + c) a = a * b ^ w.length + horner b w := by
  induction w generalizing a with
  | nil => simp [horner]
  | cons c w ih =>
    rw [List.foldl_cons, ih]
    have e : horner b (c :: w) = c * b ^ w.length + horner b w := by
      unfold horner
      rw [List.foldl_cons, ih (0 * b + c)]
      unfold horner
      ring
    rw [e, List.length_cons, pow_succ]
    ring

theorem horner_cons (b c : Int) (w : List Int) :
    horner b (c :: w) = c * b ^ w.length + horner b w := by
  have e : horner b (c :: w) = w.foldl (fun a c => a * b + c) (0 * b + c) := rfl
  rw [e, foldl_horner]
  ring

theorem horner_concat (b c : Int) (w : List Int) : horner b (w ++ [c]) = horner b w * b + c := by
  unfold horner
  rw [List.foldl_append]
  rfl

theorem rollVal_eq {rk : RabinKarp} (hov : NoOverflow rk) {bp h out c : Int}
    (h0 : 0 ≤ h) (h1 : h < rk.prime) (b0 : 0 ≤ bp) (b1 : bp < rk.prime)
    (o0 : 0 ≤ out) (o1 : out ≤ 127) (c0 : 0 ≤ c) (c1 : c ≤ 127) :
    rollVal rk bp h out c =
      ((h - out * bp % rk.prime + rk.prime) % rk.prime * rk.base + c) % rk.prime := by
  have hp := hov.1
  have ho2 := hov.2.2.2
  have hm0 : 0 ≤ out * bp := Int.mul_nonneg o0 b0
  have hm1 : out * bp ≤ 127 * (rk.prime - 1) :=
    Int.mul_le_mul o1 (by omega) b0 (by omega)
  have ht := emod_bounds hp (out * bp)
  have hh := emod_bounds hp (h - out * bp % rk.prime + rk.prime)
  unfold rollVal
  rw [wrap32_eq (x := out * bp) (by omega) (by omega), Int.tmod_eq_emod hm0 (by omega),
    wrap32_eq (x := h - out * bp % rk.prime) (by omega) (by omega),
    wrap32_eq (x := h - out * bp % rk.prime + rk.prime) (by omega) (by omega),
    Int.tmod_eq_emod (by omega) (by omega), hashStepVal_eq hov hh.1 hh.2 c0 c1]

/-- The rolling update is exact: from the hash of the window `out :: w` it
yields the hash of the window `w ++ [c]`. -/
theorem rollVal_window {rk : RabinKarp} (hov : NoOverflow rk) {out c : Int} {w : List Int}
    (o0 : 0 ≤ out) (o1 : out ≤ 127) (c0 : 0 ≤ c) (c1 : c ≤ 127) (hw : SevenBit w) :
    rollVal rk (basePowerVal rk w.length) (hashVal rk (out :: w)) out c =
      hashVal rk (w ++ [c]) := by
  have hp := hov.1
  have hsb1 : SevenBit (out :: w) := by
    intro x hx
    rcases List.mem_cons.1 hx with rfl | hx
    · exact ⟨o0, o1⟩
    · exact hw x hx
  have hsb2 : SevenBit (w ++ [c]) := by
    intro x hx
    rcases List.mem_append.1 hx with hx | hx
    · exact hw x hx
    · rw [List.mem_singleton.1 hx]; exact ⟨c0, c1⟩
  have hH := emod_bounds hp (horner rk.base (out :: w))
  have hB := emod_bounds hp (rk.base ^ w.length)
  rw [hashVal_eq hov hsb1, hashVal_eq hov hsb2, basePowerVal_eq hov,
    rollVal_eq hov hH.1 hH.2 hB.1 hB.2 o0 o1 c0 c1, horner_concat]
  refine Int.ModEq.add_right c (Int.ModEq.mul_right rk.base ?_)
  have e1 : (horner rk.base (out :: w) % rk.prime - out * (rk.base ^ w.length % rk.prime) % rk.prime
      + rk.prime) % rk.prime ≡ horner rk.base (out :: w) - out * rk.base ^ w.length + rk.prime
      [ZMOD rk.prime] :=
    (Int.mod_modEq _ _).trans
      (Int.ModEq.add_right _ (Int.ModEq.sub (Int.mod_modEq _ _)
        ((Int.mod_modEq _ _).trans (Int.ModEq.mul_left out (Int.mod_modEq _ _)))))
  refine e1.trans ?_
  rw [horner_cons]
  have : out * rk.base ^ w.length + horner rk.base w - out * rk.base ^ w.length + rk.prime
      = horner rk.base w + rk.prime * 1 := by ring
  rw [this]
  exact Int.add_mul_emod_self_left _ _ _
theorem getD_mem {text : List Int} {m : Nat} (h : m < text.length) : text.getD m 0 ∈ text := by
  rw [List.getD_eq_getElem?_getD, List.getElem?_eq_getElem h]
  exact List.getElem_mem h

theorem SevenBit.take {s : List Int} (h : SevenBit s) (k : Nat) : SevenBit (s.take k) :=
  fun c hc => h c (List.mem_of_mem_take hc)

theorem SevenBit.drop {s : List Int} (h : SevenBit s) (k : Nat) : SevenBit (s.drop k) :=
  fun c hc => h c (List.mem_of_mem_drop hc)

theorem window_cons (text : List Int) {m L : Nat} (hm : m < text.length) (hL : 1 ≤ L) :
    (text.drop m).take L = text.getD m 0 :: (text.drop (m + 1)).take (L - 1) := by
  obtain ⟨l, rfl⟩ : ∃ l, L = l + 1 := ⟨L - 1, by omega⟩
  rw [List.drop_eq_getElem_cons hm, List.take_succ_cons, List.getD_eq_getElem?_getD,
    List.getElem?_eq_getElem hm]
  rfl

theorem window_concat (text : List Int) {m L : Nat} (hm : m + 1 + L ≤ text.length) (hL : 1 ≤ L) :
    (text.drop (m + 1)).take L = (text.drop (m + 1)).take (L - 1) ++ [text.getD (m + L) 0] := by
  obtain ⟨l, rfl⟩ : ∃ l, L = l + 1 := ⟨L - 1, by omega⟩
  rw [take_succ_getD (text.drop (m + 1)) (by rw [List.length_drop]; omega)]
  simp only [Nat.add_sub_cancel, List.getD_eq_getElem?_getD, List.getElem?_drop]
  rw [show m + 1 + l = m + (l + 1) by omega]

/-- After `m` passes of the second loop `hashValue` is the hash, computed from
scratch, of the window that starts at offset `m`. -/
theorem windowVal_eq {rk : RabinKarp} (hov : NoOverflow rk) {text : List Int}
    (h7 : SevenBit text) {L : Nat} (hL : 1 ≤ L) :
    ∀ m, m + L ≤ text.length → windowVal rk text L m = hashVal rk ((text.drop m).take L) := by
  intro m
  induction m with
  | zero => intro _; rfl
  | succ m ih =>
    intro hm
    have ho := h7 _ (getD_mem (show m < text.length by omega))
    have hc := h7 _ (getD_mem (show m + L < text.length by omega))
    have hlen : ((text.drop (m + 1)).take (L - 1)).length = L - 1 := by
      rw [List.length_take, List.length_drop]
      omega
    show rollVal rk (basePowerVal rk (L - 1)) (windowVal rk text L m) (text.getD m 0)
      (text.getD (m + L) 0) = _
    have key := rollVal_window hov ho.1 ho.2 hc.1 hc.2 ((h7.drop (m + 1)).take (L - 1))
    rw [hlen] at key
    rw [ih (by omega), window_cons text (show m < text.length by omega) hL,
      window_concat text hm hL]
    exact key

theorem substr_ok (text : List Int) {i : Nat} (L : Nat) (hi : i ≤ text.length) :
    substr text (i : Int) (L : Int) = .ok ((text.drop i).take L) := by
  unfold substr
  rw [if_neg (by omega), if_neg (by omega)]
  simp

/-- Entry `i + L` of the buffer `precomputeHashes` returns is the hash of the
window of length `L` at offset `i`, as `computeHash` gives it for
`text.substr(i, L)`. -/
theorem precomputeHashes_entry {rk : RabinKarp} (hov : NoOverflow rk) {text : List Int}
    (h7 : SevenBit text) {L i : Nat} (hL : 1 ≤ L) (hi : i + L ≤ text.length) :
    ∃ hs v, precomputeHashes rk text (L : Int) = .ok (hs, ⟨rk.prime, rk.base, hs⟩) ∧
      hs.length = text.length + 1 ∧
      vecGet hs ((i : Int) + (L : Int)) = .ok v ∧
      (substr text (i : Int) (L : Int) >>= computeHash rk) = .ok v := by
  obtain ⟨hs, hrun, hlen, hget⟩ := precomputeHashes_ok hov.goodPrime text L (by omega)
  refine ⟨hs, hashVal rk ((text.drop i).take L), hrun, hlen, ?_, ?_⟩
  · have e : (i : Int) + (L : Int) = ((i + L : Nat) : Int) := by omega
    rw [e, vecGet_ok (by omega), List.getD_eq_getElem?_getD, hget (i + L),
      if_pos ⟨by omega, hi⟩, Nat.add_sub_cancel, windowVal_eq hov h7 hL i hi]
    rfl
  · rw [substr_ok text L (by omega), bind_ok, computeHash_ok hov.goodPrime]

/-! ## The closed form of the hash -/

theorem sum_eq_horner (b : Int) (s : List Int) :
    ((List.range s.length).map (fun k => s.getD k 0 * b ^ (s.length - 1 - k))).sum =
      horner b s := by
  induction s with
  | nil => rfl
  | cons c w ih =>
    rw [horner_cons, ← ih, List.length_cons, List.range_succ_eq_map, List.map_cons, List.sum_cons,
      List.map_map]
    congr 1
    apply congrArg
    apply List.map_congr_left
    intro k _
    show (c :: w).getD (k + 1) 0 * b ^ (w.length + 1 - 1 - (k + 1)) = _
    rw [show w.length + 1 - 1 - (k + 1) = w.length - 1 - k by omega]
    rfl

theorem foldl_specHorner {rk : RabinKarp} (hov : NoOverflow rk) (s : List Int) (hs : SevenBit s) :
    ∀ h : Int, 0 ≤ h → h < rk.prime →
      s.foldl (hashStepVal rk) h = s.foldl (fun hash c => (hash * rk.base + c) % rk.prime) h := by
  induction s with
  | nil => intro h _ _; rfl
  | cons c s ih =>
    intro h h0 h1
    have hc := hs c (List.mem_cons_self _ _)
    have hstep := hashStepVal_eq hov h0 h1 hc.1 hc.2
    have hb := emod_bounds hov.1 (h * rk.base + c)
    rw [List.foldl_cons, List.foldl_cons, hstep]
    exact ih (fun x hx => hs x (List.mem_cons_of_mem _ hx)) _ hb.1 hb.2

theorem noOverflow_default : NoOverflow defaultHasher := by decide


/-! ## Window lengths outside the text -/

theorem vecSet_error {v : List Int} {i : Int} (h : i < 0 ∨ (v.length : Int) ≤ i) (x : Int) :
    vecSet v i x = .error .outOfBounds := by
  unfold vecSet
  rw [if_neg (by omega)]

/-- A window longer than the text: whatever the first loop does, the write
`prefixHashes[length]` is outside the buffer. -/
theorem window_too_long_faults (rk : RabinKarp) (text : List Int) (L : Int)
    (h : (text.length : Int) < L) : ∃ e, precomputeHashes rk text L = .error e := by
  unfold precomputeHashes
  cases (List.range L.toNat).foldlM (firstWindowStep rk text L) (0, 1) with
  | error e => exact ⟨e, rfl⟩
  | ok st =>
    refine ⟨.outOfBounds, ?_⟩
    rw [bind_ok]
    simp only []
    rw [vecSet_error (by rw [length_resize]; omega), bind_error]

/-- A negative window length: no loop pass is made before the write
`prefixHashes[length]`, which is outside the buffer. -/
theorem negative_window_faults (rk : RabinKarp) (text : List Int) (L : Int) (h : L < 0) :
    precomputeHashes rk text L = .error .outOfBounds := by
  unfold precomputeHashes
  rw [show L.toNat = 0 by omega]
  simp only [List.range_zero, List.foldlM_nil]
  show (vecSet _ L 0 >>= _) = _
  rw [vecSet_error (Or.inl h), bind_error]

/-! ## Runs of `detectPlagiarism` that return -/

theorem detectCollision_eq (rk : RabinKarp) (text : List Int) {start length : Nat}
    (stop h : Int) (hb : start + length ≤ text.length) :
    detectCollision rk text start stop h length =
      (computeHash rk ((text.drop start).take length)).map (fun v => decide (v = h)) := by
  unfold detectCollision
  rw [substr_ok text length (by omega), bind_ok]
  cases computeHash rk ((text.drop start).take length) <;> rfl

theorem detectCollision_ok {rk : RabinKarp} (hp : GoodPrime rk) (text : List Int)
    {start length : Nat} (stop h : Int) (hb : start + length ≤ text.length) :
    detectCollision rk text start stop h length =
      .ok (decide (hashVal rk ((text.drop start).take length) = h)) := by
  rw [detectCollision_eq rk text stop h hb, computeHash_ok hp]
  rfl

theorem indexLoop_ok (hs : List Int) :
    ∀ (l : List Nat), (∀ i ∈ l, i < hs.length) → ∀ m0 : HashMap,
      ∃ m, l.foldlM (indexStep hs) m0 = .ok m := by
  intro l
  induction l with
  | nil => intro _ m0; exact ⟨m0, rfl⟩
  | cons i l ih =>
    intro hl m0
    rw [List.foldlM_cons]
    unfold indexStep
    rw [vecGet_ok (hl i (List.mem_cons_self _ _)), bind_ok]
    exact ih (fun j hj => hl j (List.mem_cons_of_mem _ hj)) _

theorem bucketLoop_step {rk : RabinKarp} (hp : GoodPrime rk) (paper2 : List Int) {L i : Nat}
    (hi : i + L ≤ paper2.length) (hv : Int) (out : List (Int × Int)) (startIdx : Int) :
    bucketLoop rk paper2 (L : Int) i hv out startIdx =
      .ok (if hashVal rk ((paper2.drop i).take L) = hv then out ++ [(startIdx, (i : Int))]
        else out) := by
  unfold bucketLoop
  rw [detectCollision_ok hp paper2 _ _ hi, bind_ok]
  by_cases h : hashVal rk ((paper2.drop i).take L) = hv
  · simp [h]
    rfl
  · simp [h]
    rfl

theorem bucketLoop_ok {rk : RabinKarp} (hp : GoodPrime rk) (paper2 : List Int) {L i : Nat}
    (hi : i + L ≤ paper2.length) (hv : Int) :
    ∀ (bucket : List Int) (out : List (Int × Int)),
      ∃ ds, bucket.foldlM (bucketLoop rk paper2 (L : Int) i hv) out = .ok ds := by
  intro bucket
  induction bucket with
  | nil => intro out; exact ⟨out, rfl⟩
  | cons s bucket ih =>
    intro out
    rw [List.foldlM_cons, bucketLoop_step hp paper2 hi, bind_ok]
    exact ih _

theorem probeLoop_ok {rk : RabinKarp} (hp : GoodPrime rk) (paper2 hs : List Int) (m : HashMap)
    {L : Nat} (hlen : hs.length = paper2.length + 1) :
    ∀ (l : List Nat), (∀ i ∈ l, i + L ≤ paper2.length) → ∀ out : List (Int × Int),
      ∃ ds, l.foldlM (probeStep rk paper2 hs m (L : Int)) out = .ok ds := by
  intro l
  induction l with
  | nil => intro _ out; exact ⟨out, rfl⟩
  | cons i l ih =>
    intro hl out
    have hi := hl i (List.mem_cons_self _ _)
    rw [List.foldlM_cons]
    unfold probeStep
    rw [vecGet_ok (by omega), bind_ok]
    cases m.find (hs.getD i 0) with
    | none => exact ih (fun j hj => hl j (List.mem_cons_of_mem _ hj)) _
    | some bucket =>
      obtain ⟨ds, hds⟩ := bucketLoop_ok hp paper2 hi (hs.getD i 0) bucket out
      simp only []
      rw [hds]
      exact ih (fun j hj => hl j (List.mem_cons_of_mem _ hj)) _

theorem goodPrime_PRIME1 (base : Int) (buf : List Int) : GoodPrime ⟨PRIME1, base, buf⟩ := by
  constructor
  · show PRIME1 ≠ 0
    decide
  · show PRIME1 ≠ -1
    decide

/-- With a window length between `0` and the length of both documents,
`detectPlagiarism` returns a list of detections. -/
theorem detectPlagiarism_ok (paper1 paper2 : List Int) (L : Nat) (h1 : L ≤ paper1.length)
    (h2 : L ≤ paper2.length) : ∃ ds, detectPlagiarism paper1 paper2 (L : Int) = .ok ds := by
  unfold detectPlagiarism
  obtain ⟨hs1, r1, l1, _⟩ := precomputeHashes_ok (goodPrime_PRIME1 256 []) paper1 L h1
  obtain ⟨hs2, r2, l2, _⟩ := precomputeHashes_ok (goodPrime_PRIME1 256 hs1) paper2 L h2
  simp only [RabinKarp.new]
  rw [r1, bind_ok]
  simp only []
  rw [r2, bind_ok]
  simp only []
  obtain ⟨m, hm⟩ := indexLoop_ok hs1
    (List.range (((paper1.length : Int) - (L : Int)).toNat + 1))
    (fun i hi => by rw [List.mem_range] at hi; omega) []
  unfold buildIndex probeAll
  rw [hm, bind_ok]
  exact probeLoop_ok (goodPrime_PRIME1 256 hs2) paper2 hs2 m l2 _
    (fun i hi => by rw [List.mem_range] at hi; omega) []

/-! ## The member buffer across calls -/

theorem rollStep_cases (rk : RabinKarp) (text : List Int) (L bp h : Int) (i : Nat) :
    (∃ e, ∀ buf, rollStep rk text L bp (h, buf) i = .error e) ∨
    (∃ h2, ∀ buf, rollStep rk text L bp (h, buf) i =
      (vecSet buf ((i : Int) + 1) h2 >>= fun b => pure (h2, b))) := by
  unfold rollStep
  cases charAt text ((i : Int) - L) with
  | error e => exact Or.inl ⟨e, fun _ => rfl⟩
  | ok out =>
    simp only [bind_ok]
    cases cmod (wrap32 (out * bp)) rk.prime with
    | error e => exact Or.inl ⟨e, fun _ => rfl⟩
    | ok t =>
      simp only [bind_ok]
      cases cmod (wrap32 (wrap32 (h - t) + rk.prime)) rk.prime with
      | error e => exact Or.inl ⟨e, fun _ => rfl⟩
      | ok h1 =>
        simp only [bind_ok]
        cases charAt text (i : Int) with
        | error e => exact Or.inl ⟨e, fun _ => rfl⟩
        | ok c =>
          simp only [bind_ok]
          cases cmod (wrap32 (wrap32 (h1 * rk.base) + c)) rk.prime with
          | error e => exact Or.inl ⟨e, fun _ => rfl⟩
          | ok h2 => exact Or.inr ⟨h2, fun _ => rfl⟩

/-- Two runs of the second loop of `precomputeHashes` from buffers of one
length: they fault alike, or both return, with the same `hashValue`, buffers
that agree wherever the loop wrote or the buffers agreed before, and each
buffer is unchanged where the loop did not write. -/
theorem rollLoop_sim (rk : RabinKarp) (text : List Int) (L bp : Int) :
    ∀ (l : List Nat) (h : Int) (bufA bufB : List Int), bufA.length = bufB.length →
      (∃ e, l.foldlM (rollStep rk text L bp) (h, bufA) = .error e ∧
        l.foldlM (rollStep rk text L bp) (h, bufB) = .error e) ∨
      (∃ h2 bA bB, l.foldlM (rollStep rk text L bp) (h, bufA) = .ok (h2, bA) ∧
        l.foldlM (rollStep rk text L bp) (h, bufB) = .ok (h2, bB) ∧
        bA.length = bufA.length ∧ bB.length = bufB.length ∧
        (∀ k, (bufA[k]? = bufB[k]? ∨ ∃ i ∈ l, k = i + 1) → bA[k]? = bB[k]?) ∧
        (∀ k, (∀ i ∈ l, k ≠ i + 1) → bA[k]? = bufA[k]?)) := by
  intro l
  induction l with
  | nil =>
    intro h bufA bufB _
    refine Or.inr ⟨h, bufA, bufB, rfl, rfl, rfl, rfl, ?_, fun _ _ => rfl⟩
    intro k hk
    rcases hk with hk | ⟨i, hi, _⟩
    · exact hk
    · cases hi
  | cons i l ih =>
    intro h bufA bufB hlen
    rw [List.foldlM_cons, List.foldlM_cons]
    rcases rollStep_cases rk text L bp h i with ⟨e, he⟩ | ⟨h2, hh⟩
    · rw [he, he]
      exact Or.inl ⟨e, rfl, rfl⟩
    · rw [hh, hh]
      by_cases hin : i + 1 < bufA.length
      · have e1 : ((i : Int) + 1) = ((i + 1 : Nat) : Int) := by omega
        rw [e1, vecSet_ok hin, vecSet_ok (hlen ▸ hin)]
        simp only [bind_ok, pure_bind]
        have hlen2 : (bufA.set (i + 1) h2).length = (bufB.set (i + 1) h2).length := by
          rw [List.length_set, List.length_set, hlen]
        rcases ih h2 (bufA.set (i + 1) h2) (bufB.set (i + 1) h2) hlen2 with
          ⟨e, hA, hB⟩ | ⟨h3, bA, bB, hA, hB, lA, lB, hagree, hframe⟩
        · exact Or.inl ⟨e, hA, hB⟩
        · refine Or.inr ⟨h3, bA, bB, hA, hB, ?_, ?_, ?_, ?_⟩
          · rw [lA, List.length_set]
          · rw [lB, List.length_set]
          · intro k hk
            apply hagree
            rcases hk with hk | ⟨j, hj, hkj⟩
            · left
              rw [List.getElem?_set, List.getElem?_set, hk, hlen]
            · rcases List.mem_cons.1 hj with rfl | hj
              · left
                subst hkj
                rw [List.getElem?_set, List.getElem?_set, if_pos rfl, if_pos rfl, if_pos hin,
                  if_pos (hlen ▸ hin)]
              · exact Or.inr ⟨j, hj, hkj⟩
          · intro k hk
            rw [hframe k (fun j hj => hk j (List.mem_cons_of_mem _ hj)), List.getElem?_set,
              if_neg (fun e => hk i (List.mem_cons_self _ _) e.symm)]
      · rw [vecSet_error (by omega), vecSet_error (by omega)]
        exact Or.inl ⟨.outOfBounds, rfl, rfl⟩

/-- The entries of the returned buffer from index `L` on, and whether the call
returns at all, do not depend on what the member buffer held. -/
theorem precomputeHashes_drop_eq (p b : Int) (buf buf' text : List Int) (L : Int) :
    (precomputeHashes ⟨p, b, buf⟩ text L).map (fun r => (r.1.length, r.1.drop L.toNat)) =
      (precomputeHashes ⟨p, b, buf'⟩ text L).map (fun r => (r.1.length, r.1.drop L.toNat)) := by
  unfold precomputeHashes
  have hf : firstWindowStep ⟨p, b, buf'⟩ text L = firstWindowStep ⟨p, b, buf⟩ text L := rfl
  have hr : ∀ bp, rollStep ⟨p, b, buf'⟩ text L bp = rollStep ⟨p, b, buf⟩ text L bp := fun _ => rfl
  simp only [hf, hr]
  cases (List.range L.toNat).foldlM (firstWindowStep ⟨p, b, buf⟩ text L) (0, 1) with
  | error e => rfl
  | ok st =>
    obtain ⟨h, bp⟩ := st
    simp only [bind_ok]
    by_cases hin : 0 ≤ L ∧ L < (text.length : Int) + 1
    · obtain ⟨m, rfl⟩ : ∃ m : Nat, L = (m : Int) := ⟨L.toNat, by omega⟩
      have hA : m < (resize buf (text.length + 1)).length := by rw [length_resize]; omega
      have hB : m < (resize buf' (text.length + 1)).length := by rw [length_resize]; omega
      rw [vecSet_ok hA, vecSet_ok hB]
      simp only [bind_ok, Int.toNat_ofNat]
      rcases rollLoop_sim ⟨p, b, buf⟩ text (m : Int) bp
          (List.range' m (text.length - m)) h
          ((resize buf (text.length + 1)).set m h) ((resize buf' (text.length + 1)).set m h)
          (by rw [List.length_set, List.length_set, length_resize, length_resize]) with
        ⟨e, eA, eB⟩ | ⟨h3, bA, bB, eA, eB, lA, lB, hagree, _⟩
      · rw [eA, eB]
      · rw [eA, eB]
        rw [List.length_set, length_resize] at lA lB
        show Except.ok (bA.length, bA.drop m) = Except.ok (bB.length, bB.drop m)
        rw [lA, lB]
        congr 2
        apply List.ext_getElem?
        intro k
        rw [List.getElem?_drop, List.getElem?_drop]
        apply hagree
        by_cases hk0 : k = 0
        · left
          subst hk0
          have hset : ∀ l : List Int, m < l.length → (l.set m h)[m + 0]? = some h := by
            intro l hl
            simp [hl]
          rw [hset _ hA, hset _ hB]
        · by_cases hk1 : m + k ≤ text.length
          · right
            exact ⟨m + k - 1, by rw [List.mem_range']; exact ⟨k - 1, by omega, by omega⟩, by omega⟩
          · left
            rw [List.getElem?_eq_none (by rw [List.length_set, length_resize]; omega),
              List.getElem?_eq_none (by rw [List.length_set, length_resize]; omega)]
    · rw [vecSet_error (by rw [length_resize]; omega), vecSet_error (by rw [length_resize]; omega)]

/-- The entries of the returned buffer below index `L` are those of the
resized member buffer. -/
theorem precomputeHashes_take_eq (rk : RabinKarp) (text : List Int) (L : Int) (hs : List Int)
    (rk' : RabinKarp) (hrun : precomputeHashes rk text L = .ok (hs, rk')) :
    hs.length = text.length + 1 ∧ rk' = ⟨rk.prime, rk.base, hs⟩ ∧
      hs.take L.toNat = (resize rk.prefixHashes (text.length + 1)).take L.toNat := by
  unfold precomputeHashes at hrun
  cases hfirst : (List.range L.toNat).foldlM (firstWindowStep rk text L) (0, 1) with
  | error e => rw [hfirst] at hrun; cases hrun
  | ok st =>
    obtain ⟨h, bp⟩ := st
    rw [hfirst] at hrun
    simp only [bind_ok] at hrun
    by_cases hin : 0 ≤ L ∧ L < (text.length : Int) + 1
    · obtain ⟨m, rfl⟩ : ∃ m : Nat, L = (m : Int) := ⟨L.toNat, by omega⟩
      have hA : m < (resize rk.prefixHashes (text.length + 1)).length := by
        rw [length_resize]; omega
      rw [vecSet_ok hA] at hrun
      simp only [bind_ok, Int.toNat_ofNat] at hrun
      rcases rollLoop_sim rk text (m : Int) bp (List.range' m (text.length - m)) h
          ((resize rk.prefixHashes (text.length + 1)).set m h)
          ((resize rk.prefixHashes (text.length + 1)).set m h) rfl with
        ⟨e, eA, _⟩ | ⟨h3, bA, bB, eA, _, lA, _, _, hframe⟩
      · rw [eA] at hrun
        cases hrun
      · rw [eA] at hrun
        simp only [bind_ok] at hrun
        cases hrun
        rw [List.length_set, length_resize] at lA
        refine ⟨lA, rfl, ?_⟩
        simp only [Int.toNat_ofNat]
        apply List.ext_getElem?
        intro k
        rw [List.getElem?_take, List.getElem?_take]
        by_cases hk : k < m
        · rw [if_pos hk, if_pos hk, hframe k, List.getElem?_set, if_neg (by omega)]
          intro i hi
          rw [List.mem_range'] at hi
          omega
        · rw [if_neg hk, if_neg hk]
    · rw [vecSet_error (by rw [length_resize]; omega)] at hrun
      cases hrun

/-! ## Indices of `precomputeHashes` -/

theorem cmod_cases (x m : Int) : cmod x m = .error .divide ∨ ∃ v, cmod x m = .ok v := by
  unfold cmod
  split
  · exact Or.inl rfl
  · exact Or.inr ⟨_, rfl⟩

theorem foldlM_noOOB {σ : Type} (f : σ → Nat → Except Fault σ) (Inv : σ → Prop) :
    ∀ (l : List Nat),
      (∀ st, Inv st → ∀ i ∈ l, f st i ≠ .error .outOfBounds ∧ ∀ st', f st i = .ok st' → Inv st') →
      ∀ st, Inv st → l.foldlM f st ≠ .error .outOfBounds := by
  intro l
  induction l with
  | nil => intro _ st _ h; cases h
  | cons i l ih =>
    intro hstep st hst
    rw [List.foldlM_cons]
    obtain ⟨h1, h2⟩ := hstep st hst i (List.mem_cons_self _ _)
    cases hf : f st i with
    | error e =>
      rw [bind_error]
      intro h
      rw [hf] at h1
      exact h1 h
    | ok st' =>
      rw [bind_ok]
      exact ih (fun s hs j hj => hstep s hs j (List.mem_cons_of_mem _ hj)) st' (h2 st' hf)

theorem firstWindowStep_noOOB (rk : RabinKarp) {text : List Int} (L : Int) (st : Int × Int)
    {i : Nat} (hi : i < text.length) :
    firstWindowStep rk text L st i ≠ .error .outOfBounds := by
  unfold firstWindowStep
  rw [charAt_ok hi, bind_ok]
  rcases cmod_cases (wrap32 (wrap32 (st.1 * rk.base) + text.getD i 0)) rk.prime with h | ⟨v, h⟩
  · rw [h, bind_error]
    intro hc
    cases hc
  · rw [h, bind_ok]
    split
    · rcases cmod_cases (wrap32 (st.2 * rk.base)) rk.prime with h' | ⟨v', h'⟩
      · rw [h', bind_error]
        intro hc
        cases hc
      · rw [h', bind_ok]
        intro hc
        cases hc
    · intro hc
      cases hc

theorem rollStep_noOOB (rk : RabinKarp) {text : List Int} {L i : Nat} (bp : Int)
    (st : Int × List Int) (hLi : L ≤ i) (hi : i < text.length)
    (hbuf : st.2.length = text.length + 1) :
    rollStep rk text (L : Int) bp st i ≠ .error .outOfBounds ∧
      ∀ st', rollStep rk text (L : Int) bp st i = .ok st' → st'.2.length = text.length + 1 := by
  obtain ⟨h, buf⟩ := st
  rcases rollStep_cases rk text (L : Int) bp h i with ⟨e, he⟩ | ⟨h2, hh⟩
  · rw [he]
    refine ⟨?_, fun st' hc => by cases hc⟩
    -- the fault comes from a read of `text` or from `%`
    have := he buf
    unfold rollStep at this
    have e1 : ((i : Int) - (L : Int)) = ((i - L : Nat) : Int) := by omega
    rw [e1, charAt_ok (show i - L < text.length by omega), charAt_ok hi] at this
    simp only [bind_ok] at this
    intro hc
    cases hc
    rcases cmod_cases (wrap32 (text.getD (i - L) 0 * bp)) rk.prime with c1 | ⟨t, c1⟩
    · rw [c1] at this; cases this
    · rw [c1, bind_ok] at this
      rcases cmod_cases (wrap32 (wrap32 (h - t) + rk.prime)) rk.prime with c2 | ⟨h1, c2⟩
      · rw [c2] at this; cases this
      · rw [c2, bind_ok] at this
        rcases cmod_cases (wrap32 (wrap32 (h1 * rk.base) + text.getD i 0)) rk.prime with
          c3 | ⟨h3, c3⟩
        · rw [c3] at this; cases this
        · rw [c3, bind_ok] at this
          have hb : i + 1 < buf.length := by simp only [] at hbuf; omega
          have e2 : ((i : Int) + 1) = ((i + 1 : Nat) : Int) := by omega
          rw [e2, vecSet_ok hb] at this
          cases this
  · rw [hh]
    have hb : i + 1 < buf.length := by simp only [] at hbuf; omega
    have e2 : ((i : Int) + 1) = ((i + 1 : Nat) : Int) := by omega
    rw [e2, vecSet_ok hb, bind_ok]
    refine ⟨(fun hc => by cases hc), ?_⟩
    intro st' hst
    cases hst
    show (buf.set (i + 1) h2).length = _
    rw [List.length_set]
    exact hbuf

/-- With `L ≤ len(text)` no run of `precomputeHashes` ends in an out-of-range
access, whatever the hasher. -/
theorem precomputeHashes_noOOB (rk : RabinKarp) (text : List Int) (L : Nat)
    (hLn : L ≤ text.length) : precomputeHashes rk text (L : Int) ≠ .error .outOfBounds := by
  unfold precomputeHashes
  simp only [Int.toNat_ofNat]
  have h1 := foldlM_noOOB (firstWindowStep rk text (L : Int)) (fun _ => True) (List.range L)
    (fun st _ i hi => ⟨firstWindowStep_noOOB rk (L : Int) st
      (by rw [List.mem_range] at hi; omega), fun _ _ => trivial⟩) (0, 1) trivial
  cases hf : (List.range L).foldlM (firstWindowStep rk text (L : Int)) (0, 1) with
  | error e =>
    rw [hf] at h1
    rw [bind_error]
    intro hc
    cases hc
    exact h1 rfl
  | ok st =>
    obtain ⟨h, bp⟩ := st
    rw [bind_ok]
    simp only []
    have hA : L < (resize rk.prefixHashes (text.length + 1)).length := by
      rw [length_resize]; omega
    rw [vecSet_ok hA, bind_ok]
    have h2 := foldlM_noOOB (rollStep rk text (L : Int) bp)
      (fun st => st.2.length = text.length + 1) (List.range' L (text.length - L))
      (fun st hst i hi => rollStep_noOOB rk bp st
        (by rw [List.mem_range'_1] at hi; omega)
        (by rw [List.mem_range'_1] at hi; omega) hst)
      (h, (resize rk.prefixHashes (text.length + 1)).set L h)
      (by show ((resize rk.prefixHashes (text.length + 1)).set L h).length = _
          rw [List.length_set, length_resize])
    cases hs : (List.range' L (text.length - L)).foldlM (rollStep rk text (L : Int) bp)
        (h, (resize rk.prefixHashes (text.length + 1)).set L h) with
    | error e =>
      rw [hs] at h2
      rw [bind_error]
      intro hc
      cases hc
      exact h2 rfl
    | ok st' =>
      rw [bind_ok]
      intro hc
      cases hc

/-! ## Wrap-around and exact arithmetic -/

theorem foldlM_congr_inv {σ : Type} (f g : σ → Nat → Except Fault σ) (Inv : σ → Prop)
    (hstep : ∀ st i, Inv st → f st i = g st i ∧ ∀ st', f st i = .ok st' → Inv st') :
    ∀ (l : List Nat) (st : σ), Inv st →
      l.foldlM f st = l.foldlM g st ∧ ∀ st', l.foldlM f st = .ok st' → Inv st' := by
  intro l
  induction l with
  | nil =>
    intro st hst
    refine ⟨rfl, ?_⟩
    intro st' h
    cases h
    exact hst
  | cons i l ih =>
    intro st hst
    obtain ⟨h1, h2⟩ := hstep st i hst
    rw [List.foldlM_cons, List.foldlM_cons, ← h1]
    cases hf : f st i with
    | error e => exact ⟨rfl, fun st' h => by cases h⟩
    | ok s1 =>
      rw [bind_ok, bind_ok]
      exact ih s1 (h2 s1 hf)

theorem charAt_sevenBit {text : List Int} (h7 : SevenBit text) {i c : Int}
    (h : charAt text i = .ok c) : 0 ≤ c ∧ c ≤ 127 := by
  unfold charAt at h
  split at h
  · rename_i hin
    cases h
    exact h7 _ (getD_mem (by omega))
  · split at h
    · cases h
      exact ⟨le_refl _, by decide⟩
    · cases h

theorem step_in_range {rk : RabinKarp} (hov : NoOverflow rk) {h c : Int} (h0 : 0 ≤ h)
    (h1 : h < rk.prime) (c0 : 0 ≤ c) (c1 : c ≤ 127) :
    InInt32 (h * rk.base) ∧ InInt32 (h * rk.base + c) := by
  obtain ⟨hm0, hm1⟩ := mul_base_bounds hov h0 h1
  obtain ⟨hp, hb, ho1, ho2⟩ := hov
  unfold InInt32
  omega

theorem basePower_in_range {rk : RabinKarp} (hov : NoOverflow rk) {bp : Int} (b0 : 0 ≤ bp)
    (b1 : bp < rk.prime) : InInt32 (bp * rk.base) := by
  obtain ⟨hm0, hm1⟩ := mul_base_bounds hov b0 b1
  obtain ⟨hp, hb, ho1, ho2⟩ := hov
  unfold InInt32
  omega

theorem out_in_range {rk : RabinKarp} (hov : NoOverflow rk) {out bp : Int} (o0 : 0 ≤ out)
    (o1 : out ≤ 127) (b0 : 0 ≤ bp) (b1 : bp < rk.prime) : InInt32 (out * bp) := by
  have hm0 : 0 ≤ out * bp := Int.mul_nonneg o0 b0
  have hm1 : out * bp ≤ 127 * (rk.prime - 1) := Int.mul_le_mul o1 (by omega) b0 (by omega)
  obtain ⟨hp, hb, ho1, ho2⟩ := hov
  unfold InInt32
  omega

theorem sub_in_range {rk : RabinKarp} (hov : NoOverflow rk) {h t : Int} (h0 : 0 ≤ h)
    (h1 : h < rk.prime) (t0 : 0 ≤ t) (t1 : t < rk.prime) :
    InInt32 (h - t) ∧ InInt32 (h - t + rk.prime) := by
  obtain ⟨hp, hb, ho1, ho2⟩ := hov
  unfold InInt32
  omega

theorem wrap32_of_inInt32 {x : Int} (h : InInt32 x) : wrap32 x = x := wrap32_eq h.1 h.2

theorem cmod_range {rk : RabinKarp} (hov : NoOverflow rk) {x v : Int} (hx : 0 ≤ x)
    (h : cmod x rk.prime = .ok v) : 0 ≤ v ∧ v < rk.prime := by
  have hp := hov.1
  rw [cmod_ok hov.goodPrime] at h
  cases h
  rw [Int.tmod_eq_emod hx (by omega)]
  exact emod_bounds hp x

theorem hashStep_eq_exact {rk : RabinKarp} (hov : NoOverflow rk) {h c : Int} (h0 : 0 ≤ h)
    (h1 : h < rk.prime) (c0 : 0 ≤ c) (c1 : c ≤ 127) :
    hashStep rk h c = hashStepExact rk h c ∧
      ∀ v, hashStep rk h c = .ok v → 0 ≤ v ∧ v < rk.prime := by
  obtain ⟨r1, r2⟩ := step_in_range hov h0 h1 c0 c1
  have hm := (mul_base_bounds hov h0 h1).1
  unfold hashStep hashStepExact
  rw [wrap32_of_inInt32 r1, wrap32_of_inInt32 r2]
  exact ⟨rfl, fun v hv => cmod_range hov (by omega) hv⟩

theorem computeHash_eq_exact {rk : RabinKarp} (hov : NoOverflow rk) :
    ∀ (s : List Int), SevenBit s → ∀ h : Int, 0 ≤ h → h < rk.prime →
      s.foldlM (hashStep rk) h = s.foldlM (hashStepExact rk) h := by
  intro s
  induction s with
  | nil => intro _ h _ _; rfl
  | cons c s ih =>
    intro h7 h h0 h1
    have hc := h7 c (List.mem_cons_self _ _)
    obtain ⟨e, hr⟩ := hashStep_eq_exact hov h0 h1 hc.1 hc.2
    rw [List.foldlM_cons, List.foldlM_cons, ← e]
    cases hf : hashStep rk h c with
    | error err => rfl
    | ok v =>
      rw [bind_ok, bind_ok]
      exact ih (fun x hx => h7 x (List.mem_cons_of_mem _ hx)) v (hr v hf).1 (hr v hf).2

theorem tmod_range {rk : RabinKarp} (hov : NoOverflow rk) {x : Int} (hx : 0 ≤ x) :
    0 ≤ Int.tmod x rk.prime ∧ Int.tmod x rk.prime < rk.prime := by
  have hp := hov.1
  rw [Int.tmod_eq_emod hx (by omega)]
  exact emod_bounds hp x

theorem firstWindowStep_eq_exact {rk : RabinKarp} (hov : NoOverflow rk) {text : List Int}
    (h7 : SevenBit text) (L : Int) (st : Int × Int) (i : Nat)
    (hst : (0 ≤ st.1 ∧ st.1 < rk.prime) ∧ (0 ≤ st.2 ∧ st.2 < rk.prime)) :
    firstWindowStep rk text L st i = firstWindowStepExact rk text L st i ∧
      ∀ st', firstWindowStep rk text L st i = .ok st' →
        (0 ≤ st'.1 ∧ st'.1 < rk.prime) ∧ (0 ≤ st'.2 ∧ st'.2 < rk.prime) := by
  obtain ⟨⟨h0, h1⟩, ⟨b0, b1⟩⟩ := hst
  unfold firstWindowStep firstWindowStepExact
  cases hc : charAt text (i : Int) with
  | error e => exact ⟨rfl, fun st' h => by cases h⟩
  | ok c =>
    have hc7 := charAt_sevenBit h7 hc
    obtain ⟨r1, r2⟩ := step_in_range hov h0 h1 hc7.1 hc7.2
    have r3 := basePower_in_range hov b0 b1
    have hm := (mul_base_bounds hov h0 h1).1
    have hbm := (mul_base_bounds hov b0 b1).1
    rw [bind_ok, bind_ok, wrap32_of_inInt32 r1, wrap32_of_inInt32 r2, wrap32_of_inInt32 r3]
    refine ⟨rfl, ?_⟩
    intro st' hrun
    rw [cmod_ok hov.goodPrime, bind_ok] at hrun
    have hv := tmod_range hov (show 0 ≤ st.1 * rk.base + c by omega)
    split at hrun
    · rw [cmod_ok hov.goodPrime, bind_ok] at hrun
      cases hrun
      exact ⟨hv, tmod_range hov hbm⟩
    · cases hrun
      exact ⟨hv, b0, b1⟩

theorem rollStep_eq_exact {rk : RabinKarp} (hov : NoOverflow rk) {text : List Int}
    (h7 : SevenBit text) (L : Int) {bp : Int} (b0 : 0 ≤ bp) (b1 : bp < rk.prime)
    (st : Int × List Int) (i : Nat) (hst : 0 ≤ st.1 ∧ st.1 < rk.prime) :
    rollStep rk text L bp st i = rollStepExact rk text L bp st i ∧
      ∀ st', rollStep rk text L bp st i = .ok st' → 0 ≤ st'.1 ∧ st'.1 < rk.prime := by
  obtain ⟨h0, h1⟩ := hst
  unfold rollStep rollStepExact
  cases ho : charAt text ((i : Int) - L) with
  | error e => exact ⟨rfl, fun st' h => by cases h⟩
  | ok out =>
    have ho7 := charAt_sevenBit h7 ho
    have r1 := out_in_range hov ho7.1 ho7.2 b0 b1
    have hm0 : 0 ≤ out * bp := Int.mul_nonneg ho7.1 b0
    have ht := tmod_range hov hm0
    obtain ⟨r2, r3⟩ := sub_in_range hov h0 h1 ht.1 ht.2
    have hh1 := tmod_range hov (show 0 ≤ st.1 - Int.tmod (out * bp) rk.prime + rk.prime by omega)
    simp only [bind_ok, wrap32_of_inInt32 r1, cmod_ok hov.goodPrime, wrap32_of_inInt32 r2,
      wrap32_of_inInt32 r3]
    cases hc : charAt text (i : Int) with
    | error e => exact ⟨rfl, fun st' h => by cases h⟩
    | ok c =>
      have hc7 := charAt_sevenBit h7 hc
      obtain ⟨r4, r5⟩ := step_in_range hov hh1.1 hh1.2 hc7.1 hc7.2
      have hm := (mul_base_bounds hov hh1.1 hh1.2).1
      simp only [bind_ok, wrap32_of_inInt32 r4, wrap32_of_inInt32 r5]
      refine ⟨trivial, ?_⟩
      intro st' hrun
      have hv := tmod_range hov
        (show 0 ≤ Int.tmod (st.1 - Int.tmod (out * bp) rk.prime + rk.prime) rk.prime * rk.base + c
          by omega)
      cases hset : vecSet st.2 ((i : Int) + 1)
          (Int.tmod (Int.tmod (st.1 - Int.tmod (out * bp) rk.prime + rk.prime) rk.prime * rk.base
            + c) rk.prime) with
      | error e => rw [hset] at hrun; cases hrun
      | ok buf =>
        rw [hset, bind_ok] at hrun
        cases hrun
        exact hv

/-- On a hasher whose modulus and base keep the arithmetic inside `int`, and
a text of 7-bit characters, `precomputeHashes` with 32-bit wrap-around and with
exact integers are the same function of the window length. -/
theorem precomputeHashes_eq_exact {rk : RabinKarp} (hov : NoOverflow rk) {text : List Int}
    (h7 : SevenBit text) (L : Int) :
    precomputeHashes rk text L = precomputeHashesExact rk text L := by
  have hp := hov.1
  obtain ⟨e1, inv1⟩ := foldlM_congr_inv (firstWindowStep rk text L)
    (firstWindowStepExact rk text L)
    (fun st => (0 ≤ st.1 ∧ st.1 < rk.prime) ∧ (0 ≤ st.2 ∧ st.2 < rk.prime))
    (fun st i hst => firstWindowStep_eq_exact hov h7 L st i hst)
    (List.range L.toNat) (0, 1) ⟨⟨le_refl _, by omega⟩, ⟨by decide, by omega⟩⟩
  unfold precomputeHashes precomputeHashesExact
  rw [← e1]
  cases hf : (List.range L.toNat).foldlM (firstWindowStep rk text L) (0, 1) with
  | error e => rfl
  | ok st =>
    obtain ⟨⟨h0, h1⟩, ⟨b0, b1⟩⟩ := inv1 st hf
    obtain ⟨h, bp⟩ := st
    simp only [bind_ok]
    cases hset : vecSet (resize rk.prefixHashes (text.length + 1)) L h with
    | error e => rfl
    | ok buf1 =>
      simp only [bind_ok]
      obtain ⟨e2, _⟩ := foldlM_congr_inv (rollStep rk text L bp) (rollStepExact rk text L bp)
        (fun st => 0 ≤ st.1 ∧ st.1 < rk.prime)
        (fun st i hst => rollStep_eq_exact hov h7 L b0 b1 st i hst)
        (List.range' L.toNat (text.length - L.toNat)) (h, buf1) ⟨h0, h1⟩
      rw [e2]

theorem hashVal_range {rk : RabinKarp} (hov : NoOverflow rk) {s : List Int} (h7 : SevenBit s) :
    0 ≤ hashVal rk s ∧ hashVal rk s < rk.prime := by
  rw [hashVal_eq hov h7]
  exact emod_bounds hov.1 _

theorem basePowerVal_range {rk : RabinKarp} (hov : NoOverflow rk) (k : Nat) :
    0 ≤ basePowerVal rk k ∧ basePowerVal rk k < rk.prime := by
  rw [basePowerVal_eq hov]
  exact emod_bounds hov.1 _

/-- On a text of 7-bit characters every hash `precomputeHashes` stores lies in
`[0, prime)`. -/
theorem stored_hash_range {rk : RabinKarp} (hov : NoOverflow rk) {text : List Int}
    (h7 : SevenBit text) {L : Nat} (hL : 1 ≤ L) (hLn : L ≤ text.length) :
    ∃ hs rk', precomputeHashes rk text (L : Int) = .ok (hs, rk') ∧
      ∀ k : Nat, L ≤ k → k ≤ text.length →
        ∃ v, vecGet hs (k : Int) = .ok v ∧ 0 ≤ v ∧ v < rk.prime := by
  obtain ⟨hs, hrun, hlen, hget⟩ := precomputeHashes_ok hov.goodPrime text L hLn
  refine ⟨hs, _, hrun, ?_⟩
  intro k hk1 hk2
  refine ⟨hashVal rk ((text.drop (k - L)).take L), ?_, hashVal_range hov ((h7.drop _).take _)⟩
  rw [vecGet_ok (by omega), List.getD_eq_getElem?_getD, hget k, if_pos ⟨hk1, hk2⟩,
    windowVal_eq hov h7 hL (k - L) (by omega)]
  rfl

/-! ## What `detectPlagiarism` returns -/

theorem lookup_filter_ne (m : HashMap) {k k' : Int} (h : k' ≠ k) :
    (m.filter (fun e => e.1 != k)).lookup k' = m.lookup k' := by
  induction m with
  | nil => rfl
  | cons e m ih =>
    obtain ⟨a, v⟩ := e
    by_cases ha : a = k
    · subst ha
      have h1 : (k' == a) = false := by simpa using h
      simp [List.filter_cons, List.lookup_cons, h1, ih]
    · have h1 : ((a, v).1 != k) = true := by simpa using ha
      rw [List.filter_cons, if_pos h1, List.lookup_cons, List.lookup_cons, ih]

theorem find_assign (m : HashMap) (k k' : Int) (v : List Int) :
    (m.assign k v).find k' = if k' = k then some v else m.find k' := by
  unfold HashMap.assign HashMap.find
  by_cases h : k' = k
  · subst h
    simp
  · rw [if_neg h, List.lookup_cons]
    have h1 : (k' == k) = false := by simpa using h
    rw [h1]
    exact lookup_filter_ne m h

theorem lastOffset_cons (hs : List Int) (i : Nat) (l : List Nat) (k : Int) :
    lastOffset hs (i :: l) k =
      (lastOffset hs l k).or (if hs.getD i 0 = k then some i else none) := by
  unfold lastOffset
  rw [List.reverse_cons, List.find?_append]
  congr 1
  by_cases h : hs.getD i 0 = k
  · simp [h]
  · simp [h]

theorem indexStep_eq {hs : List Int} {i : Nat} (hi : i < hs.length) (m : HashMap) :
    indexStep hs m i = .ok (m.assign (hs.getD i 0) [(i : Int)]) := by
  unfold indexStep
  rw [vecGet_ok hi, bind_ok]
  rfl

/-- The index-building loop: under each key the map holds the one-element
bucket of the last offset visited whose recorded hash is the key. -/
theorem indexLoop_find (hs : List Int) :
    ∀ (l : List Nat), (∀ i ∈ l, i < hs.length) → ∀ m0 : HashMap,
      ∃ m, l.foldlM (indexStep hs) m0 = .ok m ∧
        ∀ k, m.find k =
          match lastOffset hs l k with
          | some i => some [(i : Int)]
          | none => m0.find k := by
  intro l
  induction l with
  | nil =>
    intro _ m0
    exact ⟨m0, rfl, fun k => rfl⟩
  | cons i l ih =>
    intro hl m0
    obtain ⟨m, hm, hfind⟩ := ih (fun j hj => hl j (List.mem_cons_of_mem _ hj))
      (m0.assign (hs.getD i 0) [(i : Int)])
    refine ⟨m, ?_, ?_⟩
    · rw [List.foldlM_cons, indexStep_eq (hl i (List.mem_cons_self _ _)), bind_ok]
      exact hm
    · intro k
      rw [hfind k, lastOffset_cons, find_assign]
      cases lastOffset hs l k with
      | some j => rfl
      | none =>
        show (if k = hs.getD i 0 then some [(i : Int)] else m0.find k) =
          match (if hs.getD i 0 = k then some i else none) with
          | some i => some [(i : Int)]
          | none => m0.find k
        by_cases h : hs.getD i 0 = k
        · rw [if_pos h, if_pos h.symm]
        · rw [if_neg h, if_neg (fun e => h e.symm)]

theorem bucketLoop_eq {rk : RabinKarp} (hp : GoodPrime rk) (paper2 : List Int) {L j : Nat}
    (hj : j + L ≤ paper2.length) (hv : Int) :
    ∀ (bucket : List Int) (out : List (Int × Int)),
      bucket.foldlM (bucketLoop rk paper2 (L : Int) j hv) out =
        .ok (out ++ if hashVal rk ((paper2.drop j).take L) = hv then
          bucket.map (fun startIdx => (startIdx, (j : Int))) else []) := by
  intro bucket
  induction bucket with
  | nil =>
    intro out
    simp
    rfl
  | cons s bucket ih =>
    intro out
    rw [List.foldlM_cons, bucketLoop_step hp paper2 hj, bind_ok, ih]
    by_cases h : hashVal rk ((paper2.drop j).take L) = hv
    · simp [h]
    · simp [h]

theorem probeStep_eq {rk : RabinKarp} (hp : GoodPrime rk) (paper2 hs : List Int) (m : HashMap)
    {L j : Nat} (hlen : hs.length = paper2.length + 1) (hj : j + L ≤ paper2.length)
    (out : List (Int × Int)) :
    probeStep rk paper2 hs m (L : Int) out j = .ok (out ++ detectionsAt rk paper2 hs m L j) := by
  unfold probeStep detectionsAt
  rw [vecGet_ok (by omega), bind_ok]
  cases m.find (hs.getD j 0) with
  | none =>
    simp
    rfl
  | some bucket => exact bucketLoop_eq hp paper2 hj _ bucket out

theorem probeLoop_eq {rk : RabinKarp} (hp : GoodPrime rk) (paper2 hs : List Int) (m : HashMap)
    {L : Nat} (hlen : hs.length = paper2.length + 1) :
    ∀ (l : List Nat), (∀ j ∈ l, j + L ≤ paper2.length) → ∀ out : List (Int × Int),
      l.foldlM (probeStep rk paper2 hs m (L : Int)) out =
        .ok (out ++ detections rk paper2 hs m L l) := by
  intro l
  induction l with
  | nil =>
    intro _ out
    simp [detections]
    rfl
  | cons j l ih =>
    intro hl out
    rw [List.foldlM_cons, probeStep_eq hp paper2 hs m hlen (hl j (List.mem_cons_self _ _)),
      bind_ok, ih (fun i hi => hl i (List.mem_cons_of_mem _ hi))]
    simp [detections]

/-- The run of `detectPlagiarism` for a window length within both documents:
the two hash buffers, the index and the detections. -/
theorem detectPlagiarism_eq (paper1 paper2 : List Int) (L : Nat) (h1 : L ≤ paper1.length)
    (h2 : L ≤ paper2.length) :
    ∃ hs1 hs2 m,
      precomputeHashes (RabinKarp.new PRIME1 256) paper1 (L : Int) =
        .ok (hs1, ⟨PRIME1, 256, hs1⟩) ∧
      precomputeHashes ⟨PRIME1, 256, hs1⟩ paper2 (L : Int) = .ok (hs2, ⟨PRIME1, 256, hs2⟩) ∧
      hs1.length = paper1.length + 1 ∧ hs2.length = paper2.length + 1 ∧
      (∀ k, m.find k = (lastOffset hs1 (List.range (paper1.length - L + 1)) k).map
        (fun i : Nat => [(i : Int)])) ∧
      detectPlagiarism paper1 paper2 (L : Int) =
        .ok (detections ⟨PRIME1, 256, hs2⟩ paper2 hs2 m L (List.range (paper2.length - L + 1))) := by
  obtain ⟨hs1, r1, l1, _⟩ := precomputeHashes_ok (goodPrime_PRIME1 256 []) paper1 L h1
  obtain ⟨hs2, r2, l2, _⟩ := precomputeHashes_ok (goodPrime_PRIME1 256 hs1) paper2 L h2
  obtain ⟨m, hm, hfind⟩ := indexLoop_find hs1 (List.range (paper1.length - L + 1))
    (fun i hi => by rw [List.mem_range] at hi; omega) []
  refine ⟨hs1, hs2, m, r1, r2, l1, l2, ?_, ?_⟩
  · intro k
    rw [hfind k]
    cases lastOffset hs1 (List.range (paper1.length - L + 1)) k <;> rfl
  · have e1 : ((paper1.length : Int) - (L : Int)).toNat = paper1.length - L := by omega
    have e2 : ((paper2.length : Int) - (L : Int)).toNat = paper2.length - L := by omega
    unfold detectPlagiarism
    simp only [RabinKarp.new] at r1 ⊢
    rw [r1, bind_ok]
    simp only []
    rw [r2, bind_ok]
    simp only []
    unfold buildIndex probeAll
    rw [e1, e2, hm, bind_ok, probeLoop_eq (goodPrime_PRIME1 256 hs2) paper2 hs2 m l2 _
      (fun i hi => by rw [List.mem_range] at hi; omega)]
    rfl

theorem mem_detections (rk : RabinKarp) (paper2 hs : List Int) (m : HashMap) (L : Nat)
    (x : Int × Int) :
    ∀ l : List Nat, x ∈ detections rk paper2 hs m L l ↔
      ∃ j ∈ l, x ∈ detectionsAt rk paper2 hs m L j := by
  intro l
  induction l with
  | nil => simp [detections]
  | cons j l ih =>
    rw [detections, List.mem_append, ih]
    simp

theorem mem_detectionsAt (rk : RabinKarp) (paper2 hs hs1 : List Int) (m : HashMap) (L : Nat)
    (R : List Nat) (hfind : ∀ k, m.find k = (lastOffset hs1 R k).map (fun i : Nat => [(i : Int)]))
    (j : Nat) (x : Int × Int) :
    x ∈ detectionsAt rk paper2 hs m L j ↔
      ∃ i, lastOffset hs1 R (hs.getD j 0) = some i ∧
        hashVal rk ((paper2.drop j).take L) = hs.getD j 0 ∧ x = ((i : Int), (j : Int)) := by
  unfold detectionsAt
  rw [hfind]
  cases lastOffset hs1 R (hs.getD j 0) with
  | none =>
    constructor
    · intro h
      cases h
    · rintro ⟨i, hi, _⟩
      cases hi
  | some i =>
    show x ∈ (if hashVal rk ((paper2.drop j).take L) = hs.getD j 0 then
        [(i : Int)].map (fun startIdx => (startIdx, (j : Int))) else []) ↔ _
    by_cases h : hashVal rk ((paper2.drop j).take L) = hs.getD j 0
    · rw [if_pos h]
      constructor
      · intro hx
        rw [List.map_singleton, List.mem_singleton] at hx
        exact ⟨i, rfl, h, hx⟩
      · rintro ⟨i', hi', _, hx⟩
        cases hi'
        rw [List.map_singleton, List.mem_singleton]
        exact hx
    · rw [if_neg h]
      constructor
      · intro hx
        cases hx
      · rintro ⟨_, _, h', _⟩
        exact absurd h' h

theorem detectionsAt_cases (rk : RabinKarp) (paper2 hs hs1 : List Int) (m : HashMap) (L : Nat)
    (R : List Nat) (hfind : ∀ k, m.find k = (lastOffset hs1 R k).map (fun i : Nat => [(i : Int)]))
    (j : Nat) :
    detectionsAt rk paper2 hs m L j = [] ∨
      ∃ s, detectionsAt rk paper2 hs m L j = [(s, (j : Int))] := by
  unfold detectionsAt
  rw [hfind]
  cases lastOffset hs1 R (hs.getD j 0) with
  | none => exact Or.inl rfl
  | some i =>
    show (if hashVal rk ((paper2.drop j).take L) = hs.getD j 0 then
        [(i : Int)].map (fun startIdx => (startIdx, (j : Int))) else []) = [] ∨ _
    by_cases h : hashVal rk ((paper2.drop j).take L) = hs.getD j 0
    · right
      refine ⟨(i : Int), ?_⟩
      show (if hashVal rk ((paper2.drop j).take L) = hs.getD j 0 then
        [(i : Int)].map (fun startIdx => (startIdx, (j : Int))) else []) = _
      rw [if_pos h]
      rfl
    · left
      rw [if_neg h]

/-- With one-element buckets the detections of increasing positions have
increasing second components. -/
theorem pairwise_detections (rk : RabinKarp) (paper2 hs : List Int) (m : HashMap) (L : Nat)
    (hcases : ∀ j, detectionsAt rk paper2 hs m L j = [] ∨
      ∃ s, detectionsAt rk paper2 hs m L j = [(s, (j : Int))]) :
    ∀ l : List Nat, l.Pairwise (fun a b => a < b) →
      (detections rk paper2 hs m L l).Pairwise (fun a b => a.2 < b.2) := by
  intro l
  induction l with
  | nil => intro _; exact List.Pairwise.nil
  | cons j l ih =>
    intro hl
    rw [List.pairwise_cons] at hl
    rw [detections, List.pairwise_append]
    refine ⟨?_, ih hl.2, ?_⟩
    · rcases hcases j with h | ⟨s, h⟩
      · rw [h]; exact List.Pairwise.nil
      · rw [h]; exact List.pairwise_singleton _ _
    · intro a ha b hb
      rw [mem_detections] at hb
      obtain ⟨j', hj', hb'⟩ := hb
      have hlt := hl.1 j' hj'
      have ea : a.2 = (j : Int) := by
        rcases hcases j with h | ⟨s, h⟩
        · rw [h] at ha; cases ha
        · rw [h, List.mem_singleton] at ha; rw [ha]
      have eb : b.2 = (j' : Int) := by
        rcases hcases j' with h | ⟨s, h⟩
        · rw [h] at hb'; cases hb'
        · rw [h, List.mem_singleton] at hb'; rw [hb']
      rw [ea, eb]
      omega

/-! ## The raw hash buffers of `detectPlagiarism` on 7-bit documents -/

theorem getElem?_resize (v : List Int) {n k : Nat} (hk : k < n) :
    (resize v n)[k]? = some (v.getD k 0) := by
  unfold resize
  by_cases h : k < v.length
  · rw [List.getElem?_append_left (by rw [List.length_take]; omega), List.getElem?_take,
      if_pos hk, List.getD_eq_getElem?_getD, List.getElem?_eq_getElem h]
    rfl
  · rw [List.getElem?_append_right (by rw [List.length_take]; omega), List.getElem?_replicate,
      if_pos (by rw [List.length_take]; omega), List.getD_eq_getElem?_getD,
      List.getElem?_eq_none (by omega)]
    rfl

theorem lastOffset_isSome (hs : List Int) (R : List Nat) (k : Int) :
    (∃ i, lastOffset hs R k = some i) ↔ ∃ i ∈ R, hs.getD i 0 = k := by
  unfold lastOffset
  rw [← Option.isSome_iff_exists, List.find?_isSome]
  constructor
  · rintro ⟨i, hi, hp⟩
    exact ⟨i, List.mem_reverse.1 hi, of_decide_eq_true hp⟩
  · rintro ⟨i, hi, hp⟩
    exact ⟨i, List.mem_reverse.2 hi, decide_eq_true hp⟩

theorem noOverflow_PRIME1 (buf : List Int) : NoOverflow ⟨PRIME1, 256, buf⟩ := by
  show (2 : Int) ≤ PRIME1 ∧ (0 : Int) ≤ 256 ∧ (PRIME1 - 1) * 256 + 127 ≤ 2147483647 ∧
    127 * (PRIME1 - 1) ≤ 2147483647
  decide

/-- The buffer `precomputeHashes` returns on a 7-bit text, from a hasher with
the default prime and base whose buffer holds `0` below the window length. -/
theorem precomputeHashes_rawHash {text : List Int} (h7 : SevenBit text) {L : Nat} (hL : 1 ≤ L)
    (hLn : L ≤ text.length) (buf : List Int) (hbuf : ∀ k, k < L → buf.getD k 0 = 0) :
    ∃ hs, precomputeHashes ⟨PRIME1, 256, buf⟩ text (L : Int) = .ok (hs, ⟨PRIME1, 256, hs⟩) ∧
      hs.length = text.length + 1 ∧ ∀ k, k ≤ text.length → hs.getD k 0 = rawHash text L k := by
  obtain ⟨hs, hrun, hlen, hget⟩ :=
    precomputeHashes_ok (goodPrime_PRIME1 256 buf) text L hLn
  refine ⟨hs, hrun, hlen, ?_⟩
  intro k hk
  rw [List.getD_eq_getElem?_getD, hget k]
  unfold rawHash
  by_cases hkL : k < L
  · rw [if_neg (by omega), if_pos hkL]
    show ((resize buf (text.length + 1))[k]?).getD 0 = 0
    rw [getElem?_resize buf (by omega)]
    exact hbuf k hkL
  · rw [if_pos ⟨by omega, hk⟩, if_neg hkL,
      windowVal_eq (noOverflow_PRIME1 buf) h7 hL (k - L) (by omega)]
    rfl

theorem rawHash_lt (text : List Int) {L k : Nat} (hk : k < L) : rawHash text L k = 0 := by
  unfold rawHash
  rw [if_pos hk]

/-- The run of `detectPlagiarism` on 7-bit documents: the raw hash buffers and
the positions reported. -/
theorem detectPlagiarism_sevenBit {paper1 paper2 : List Int} (h7a : SevenBit paper1)
    (h7b : SevenBit paper2) {L : Nat} (hL : 1 ≤ L) (h1 : L ≤ paper1.length)
    (h2 : L ≤ paper2.length) :
    ∃ hs1 hs2 ds,
      precomputeHashes (RabinKarp.new PRIME1 256) paper1 (L : Int) =
        .ok (hs1, ⟨PRIME1, 256, hs1⟩) ∧
      precomputeHashes ⟨PRIME1, 256, hs1⟩ paper2 (L : Int) = .ok (hs2, ⟨PRIME1, 256, hs2⟩) ∧
      hs1.length = paper1.length + 1 ∧ hs2.length = paper2.length + 1 ∧
      (∀ k, k ≤ paper1.length → hs1.getD k 0 = rawHash paper1 L k) ∧
      (∀ k, k ≤ paper2.length → hs2.getD k 0 = rawHash paper2 L k) ∧
      detectPlagiarism paper1 paper2 (L : Int) = .ok ds ∧
      ∀ jz : Int, jz ∈ ds.map Prod.snd ↔
        ∃ j : Nat, jz = (j : Int) ∧ j ≤ paper2.length - L ∧
          (∃ i, i ≤ paper1.length - L ∧ rawHash paper1 L i = rawHash paper2 L j) ∧
          hashVal defaultHasher ((paper2.drop j).take L) = rawHash paper2 L j := by
  obtain ⟨hs1, hs2, m, r1, r2, l1, l2, hfind, hrun⟩ := detectPlagiarism_eq paper1 paper2 L h1 h2
  obtain ⟨hs1', r1', _, raw1⟩ := precomputeHashes_rawHash h7a hL h1 [] (fun k _ => rfl)
  have e1 : hs1' = hs1 := by
    have := r1'.symm.trans r1
    cases this
    rfl
  subst e1
  obtain ⟨hs2', r2', _, raw2⟩ := precomputeHashes_rawHash h7b hL h2 hs1'
    (fun k hk => by rw [raw1 k (by omega), rawHash_lt _ hk])
  have e2 : hs2' = hs2 := by
    have := r2'.symm.trans r2
    cases this
    rfl
  subst e2
  refine ⟨hs1', hs2', _, r1, r2, l1, l2, raw1, raw2, hrun, ?_⟩
  intro jz
  rw [List.mem_map]
  constructor
  · rintro ⟨x, hx, rfl⟩
    rw [mem_detections] at hx
    obtain ⟨j, hj, hx⟩ := hx
    rw [mem_detectionsAt _ _ _ hs1' m L _ hfind] at hx
    obtain ⟨i, hi, hconf, rfl⟩ := hx
    rw [List.mem_range] at hj
    have hj' : j ≤ paper2.length := by omega
    obtain ⟨i', hi', hk⟩ := (lastOffset_isSome _ _ _).1 ⟨i, hi⟩
    rw [List.mem_range] at hi'
    rw [raw1 i' (by omega), raw2 j hj'] at hk
    refine ⟨j, rfl, by omega, ⟨i', by omega, hk⟩, ?_⟩
    rw [raw2 j hj'] at hconf
    exact hconf
  · rintro ⟨j, rfl, hj, ⟨i, hi, hk⟩, hconf⟩
    have hj' : j ≤ paper2.length := by omega
    obtain ⟨i', hi'⟩ := (lastOffset_isSome hs1' (List.range (paper1.length - L + 1))
      (hs2'.getD j 0)).2 ⟨i, by rw [List.mem_range]; omega, by
        rw [raw1 i (by omega), raw2 j hj']; exact hk⟩
    refine ⟨((i' : Int), (j : Int)), ?_, rfl⟩
    rw [mem_detections]
    refine ⟨j, by rw [List.mem_range]; omega, ?_⟩
    rw [mem_detectionsAt _ _ _ hs1' m L _ hfind]
    refine ⟨i', hi', ?_, rfl⟩
    rw [raw2 j hj']
    exact hconf

theorem vecGet_eq_iff {hs : List Int} {i : Nat} (hi : i < hs.length) (v : Int) :
    vecGet hs (i : Int) = .ok v ↔ hs.getD i 0 = v := by
  rw [vecGet_ok hi]
  constructor
  · intro h
    cases h
    rfl
  · intro h
    rw [h]

theorem confirm_iff (paper2 : List Int) {j L : Nat} (hj : j + L ≤ paper2.length) (v : Int) :
    (substr paper2 (j : Int) (L : Int) >>= computeHash defaultHasher) = .ok v ↔
      hashVal defaultHasher ((paper2.drop j).take L) = v := by
  have hg : GoodPrime defaultHasher := goodPrime_PRIME1 256 []
  rw [substr_ok paper2 L (by omega), bind_ok, computeHash_ok hg]
  constructor
  · intro h
    cases h
    rfl
  · intro h
    rw [h]

/-- Whether `detectPlagiarism` reports position `j`, in terms of the buffers
the two calls of `precomputeHashes` return. -/
theorem reports_iff_buffers {paper1 paper2 : List Int} (h7a : SevenBit paper1)
    (h7b : SevenBit paper2) {L j : Nat} (hL : 1 ≤ L) (h1 : L ≤ paper1.length)
    (h2 : L ≤ paper2.length) (hj : j ≤ paper2.length - L)
    {hs1 hs2 : List Int} {rk1 rk2 : RabinKarp} {ds : List (Int × Int)}
    (r1 : precomputeHashes (RabinKarp.new PRIME1 256) paper1 (L : Int) = .ok (hs1, rk1))
    (r2 : precomputeHashes rk1 paper2 (L : Int) = .ok (hs2, rk2))
    (hrun : detectPlagiarism paper1 paper2 (L : Int) = .ok ds) :
    vecGet hs2 (j : Int) = .ok (rawHash paper2 L j) ∧
      ((j : Int) ∈ ds.map Prod.snd ↔
        (∃ i : Nat, i ≤ paper1.length - L ∧ vecGet hs1 (i : Int) = .ok (rawHash paper2 L j)) ∧
        (substr paper2 (j : Int) (L : Int) >>= computeHash defaultHasher) =
          .ok (rawHash paper2 L j)) := by
  obtain ⟨hs1', hs2', ds', r1', r2', l1, l2, raw1, raw2, hrun', hiff⟩ :=
    detectPlagiarism_sevenBit h7a h7b hL h1 h2
  have e1 := r1'.symm.trans r1
  cases e1
  have e2 := r2'.symm.trans r2
  cases e2
  have e3 := hrun'.symm.trans hrun
  cases e3
  refine ⟨(vecGet_eq_iff (by omega) _).2 (raw2 j (by omega)), ?_⟩
  rw [hiff (j : Int), confirm_iff paper2 (by omega)]
  constructor
  · rintro ⟨j', hj', _, ⟨i, hi, hk⟩, hconf⟩
    have : j' = j := by omega
    subst this
    exact ⟨⟨i, hi, (vecGet_eq_iff (by omega) _).2 ((raw1 i (by omega)).trans hk)⟩, hconf⟩
  · rintro ⟨⟨i, hi, hk⟩, hconf⟩
    refine ⟨j, rfl, hj, ⟨i, hi, ?_⟩, hconf⟩
    rw [← raw1 i (by omega)]
    exact (vecGet_eq_iff (by omega) _).1 hk

/-! ## The documents of `testScalability` -/

theorem window_before {A W t : Nat} (a : Int) (rest : List Int) (h : t + W ≤ A) :
    ((List.replicate A a ++ rest).drop t).take W = List.replicate W a := by
  rw [List.drop_append_of_le_length (by rw [List.length_replicate]; omega),
    List.take_append_of_le_length (by rw [List.length_drop, List.length_replicate]; omega),
    List.drop_replicate, List.take_replicate, Nat.min_eq_left (by omega)]

theorem window_after {A B W t : Nat} (a b : Int) (h1 : A + 1 ≤ t) (h2 : t + W ≤ A + 1 + B) :
    ((List.replicate A a ++ b :: List.replicate B a).drop t).take W = List.replicate W a := by
  obtain ⟨d, rfl⟩ : ∃ d, t = A + (d + 1) := ⟨t - A - 1, by omega⟩
  have e : (List.replicate A a ++ b :: List.replicate B a).drop (A + (d + 1)) =
      (b :: List.replicate B a).drop (d + 1) := by
    have := @List.drop_append Int (List.replicate A a) (b :: List.replicate B a) (d + 1)
    rw [List.length_replicate] at this
    exact this
  rw [e, List.drop_succ_cons, List.drop_replicate, List.take_replicate,
    Nat.min_eq_left (by omega)]

theorem window_across {A B W t : Nat} (a b : Int) (h1 : t ≤ A) (h2 : A < t + W)
    (h3 : t + W ≤ A + 1 + B) :
    ((List.replicate A a ++ b :: List.replicate B a).drop t).take W =
      List.replicate (A - t) a ++ b :: List.replicate (W - (A - t) - 1) a := by
  obtain ⟨d, hd⟩ : ∃ d, W = (A - t) + (d + 1) := ⟨W - (A - t) - 1, by omega⟩
  rw [List.drop_append_of_le_length (by rw [List.length_replicate]; omega), List.drop_replicate]
  have e : (List.replicate (A - t) a ++ b :: List.replicate B a).take W =
      List.replicate (A - t) a ++ (b :: List.replicate B a).take (d + 1) := by
    have := @List.take_append Int (List.replicate (A - t) a) (b :: List.replicate B a) (d + 1)
    rw [List.length_replicate, ← hd] at this
    exact this
  rw [e, List.take_succ_cons, List.take_replicate, Nat.min_eq_left (by omega),
    show W - (A - t) - 1 = d by omega]

theorem largeText2_eq :
    largeText2 = List.replicate 50000 97 ++ 98 :: List.replicate 49999 97 := by
  unfold largeText2 largeText1
  rw [List.set_eq_take_append_cons_drop, if_pos (by rw [List.length_replicate]; decide),
    List.take_replicate, List.drop_replicate]
  rfl

theorem length_largeText1 : largeText1.length = 100000 := by
  unfold largeText1
  rw [List.length_replicate]

theorem length_largeText2 : largeText2.length = 100000 := by
  unfold largeText2
  rw [List.length_set, length_largeText1]

theorem sevenBit_largeText1 : SevenBit largeText1 := by
  intro c hc
  unfold largeText1 at hc
  rw [List.eq_of_mem_replicate hc]
  decide

theorem sevenBit_largeText2 : SevenBit largeText2 := by
  intro c hc
  rw [largeText2_eq, List.mem_append, List.mem_cons] at hc
  rcases hc with h | h | h
  · rw [List.eq_of_mem_replicate h]; decide
  · rw [h]; decide
  · rw [List.eq_of_mem_replicate h]; decide

theorem hash_all_a : hashVal defaultHasher (List.replicate 100 97) = 0 := by decide!

theorem hash_one_b : ∀ k < 100,
    hashVal defaultHasher (List.replicate k 97 ++ 98 :: List.replicate (99 - k) 97) ≠ 0 := by
  decide!

theorem window_largeText1 {t : Nat} (h : t + 100 ≤ 100000) :
    (largeText1.drop t).take 100 = List.replicate 100 97 := by
  unfold largeText1
  rw [List.drop_replicate, List.take_replicate, Nat.min_eq_left (by omega)]

theorem window_largeText2_a {t : Nat} (h : t + 100 ≤ 50000 ∨ (50001 ≤ t ∧ t + 100 ≤ 100000)) :
    (largeText2.drop t).take 100 = List.replicate 100 97 := by
  rw [largeText2_eq]
  rcases h with h | ⟨h1, h2⟩
  · exact window_before 97 _ h
  · exact window_after 97 98 h1 (by omega)

theorem window_largeText2_b {t : Nat} (h1 : 49901 ≤ t) (h2 : t ≤ 50000) :
    (largeText2.drop t).take 100 =
      List.replicate (50000 - t) 97 ++ 98 :: List.replicate (99 - (50000 - t)) 97 := by
  rw [largeText2_eq, window_across 97 98 h2 (by omega) (by omega)]
  rw [show 100 - (50000 - t) - 1 = 99 - (50000 - t) by omega]

theorem rawHash_largeText1 {i : Nat} (hi : i ≤ 100000) : rawHash largeText1 100 i = 0 := by
  unfold rawHash
  split
  · rfl
  · rw [window_largeText1 (by omega), hash_all_a]

theorem rawHash_largeText2_zero {j : Nat} (h : j ≤ 50000 ∨ (50101 ≤ j ∧ j ≤ 100000)) :
    rawHash largeText2 100 j = 0 := by
  unfold rawHash
  split
  · rfl
  · rw [window_largeText2_a (by omega), hash_all_a]

theorem rawHash_largeText2_ne {j : Nat} (h1 : 50001 ≤ j) (h2 : j ≤ 50100) :
    rawHash largeText2 100 j ≠ 0 := by
  unfold rawHash
  rw [if_neg (by omega), window_largeText2_b (by omega) (by omega)]
  exact hash_one_b _ (by omega)

/-- The positions `detectPlagiarism(largeText1, largeText2, 100)` reports. -/
theorem scalability_reported :
    ∃ ds, detectPlagiarism largeText1 largeText2 ((100 : Nat) : Int) = .ok ds ∧
      ∀ j : Nat, (j : Int) ∈ ds.map Prod.snd ↔ j ≤ 49900 ∨ (50101 ≤ j ∧ j ≤ 99900) := by
  obtain ⟨hs1, hs2, ds, _, _, _, _, _, _, hrun, hiff⟩ :=
    detectPlagiarism_sevenBit sevenBit_largeText1 sevenBit_largeText2 (L := 100) (by decide)
      (by rw [length_largeText1]; decide) (by rw [length_largeText2]; decide)
  refine ⟨ds, hrun, ?_⟩
  intro j
  rw [hiff (j : Int), length_largeText1, length_largeText2]
  constructor
  · rintro ⟨j', hj', hle, ⟨i, hi, hk⟩, hconf⟩
    have : j' = j := by omega
    subst this
    rw [rawHash_largeText1 (by omega)] at hk
    by_cases hA : j' ≤ 49900
    · exact Or.inl hA
    · by_cases hB : j' ≤ 50000
      · exfalso
        rw [window_largeText2_b (by omega) hB, rawHash_largeText2_zero (Or.inl hB)] at hconf
        exact hash_one_b _ (by omega) hconf
      · by_cases hC : j' ≤ 50100
        · exact absurd hk.symm (rawHash_largeText2_ne (by omega) hC)
        · exact Or.inr ⟨by omega, by omega⟩
  · intro h
    have hraw : rawHash largeText2 100 j = 0 := rawHash_largeText2_zero (by omega)
    refine ⟨j, rfl, by omega, ⟨0, by omega, ?_⟩, ?_⟩
    · rw [rawHash_largeText1 (by omega), hraw]
    · rw [hraw, window_largeText2_a (by omega), hash_all_a]

/-! ## The hasher -/

/-- C1, as stated, fails. On the default hasher `precomputeHashes("abcdabcd", 4)`
holds `0` at entry `0`, while `computeHash` of the window at offset `0` (`"abcd"`)
is `11`: the hash of the window at offset `i` is stored at entry `i + L`. Nor
does the equality hold at entry `i + L` for every text and hasher: with the
`char` value `-1` in the window (text `97, -1, 97`, `L = 2`, offset `1`) entry
`3` is `43` and `computeHash` gives `-58`; with prime `2147483647` and base `256`
the products overflow (`"abcdef"`, `L = 5`, offset `1`). -/
theorem precomputeHashes_entry_counterexample :
    (∃ hs rk' a b, precomputeHashes defaultHasher (str "abcdabcd") 4 = .ok (hs, rk') ∧
      vecGet hs 0 = .ok a ∧
      (substr (str "abcdabcd") 0 4 >>= computeHash defaultHasher) = .ok b ∧ a = 0 ∧ b = 11) ∧
    (∃ hs rk' a b, precomputeHashes defaultHasher [97, -1, 97] 2 = .ok (hs, rk') ∧
      vecGet hs (1 + 2) = .ok a ∧
      (substr [97, -1, 97] 1 2 >>= computeHash defaultHasher) = .ok b ∧ a = 43 ∧ b = -58) ∧
    (∃ hs rk' a b,
      precomputeHashes (RabinKarp.new 2147483647 256) (str "abcdef") 5 = .ok (hs, rk') ∧
      vecGet hs (1 + 5) = .ok a ∧
      (substr (str "abcdef") 1 5 >>= computeHash (RabinKarp.new 2147483647 256)) = .ok b ∧
      a = 1667523686 ∧ b = 1667523942) :=
  ⟨⟨[0, 0, 0, 0, 11, 54, 87, 85, 11], ⟨101, 256, [0, 0, 0, 0, 11, 54, 87, 85, 11]⟩, 0, 11,
      by decide, by decide, by decide, rfl, rfl⟩,
    ⟨[0, 0, 86, 43], ⟨101, 256, [0, 0, 86, 43]⟩, 43, -58,
      by decide, by decide, by decide, rfl, rfl⟩,
    ⟨[0, 0, 0, 0, 0, 1650680933, 1667523686],
      ⟨2147483647, 256, [0, 0, 0, 0, 0, 1650680933, 1667523686]⟩, 1667523686, 1667523942,
      by decide, by decide, by decide, rfl, rfl⟩⟩

/-- C1, amended. For every hasher whose prime and base keep the arithmetic
inside `int` (`NoOverflow`; whatever its buffer holds), every text of 7-bit
characters, every `L` with `1 ≤ L ≤ len` and every offset `i` with
`i ≤ len - L`: `precomputeHashes(s, L)` returns a sequence of `len + 1`
entries whose entry `i + L` equals `computeHash` of the substring of `s` that
starts at offset `i` and has length `L`. -/
theorem precomputeHashes_entry_shifted (rk : RabinKarp) (s : List Int) (L i : Nat)
    (hov : NoOverflow rk) (h7 : SevenBit s) (hL : 1 ≤ L) (hLn : L ≤ s.length)
    (hi : i ≤ s.length - L) :
    ∃ hs v, precomputeHashes rk s (L : Int) = .ok (hs, ⟨rk.prime, rk.base, hs⟩) ∧
      hs.length = s.length + 1 ∧
      vecGet hs ((i : Int) + (L : Int)) = .ok v ∧
      (substr s (i : Int) (L : Int) >>= computeHash rk) = .ok v :=
  precomputeHashes_entry hov h7 hL (by omega)

/-- C1, amended, at a hasher with prime `103`, base `31` and a used buffer, the
text `"abcdabcd"`, `L = 3` and offset `2`. -/
theorem precomputeHashes_entry_shifted_witness :
    NoOverflow ⟨103, 31, [7, 7]⟩ ∧ SevenBit (str "abcdabcd") ∧ 1 ≤ 3 ∧
      3 ≤ (str "abcdabcd").length ∧ 2 ≤ (str "abcdabcd").length - 3 ∧
      ∃ hs v, precomputeHashes ⟨103, 31, [7, 7]⟩ (str "abcdabcd") ((3 : Nat) : Int) =
          .ok (hs, ⟨103, 31, hs⟩) ∧
        hs.length = (str "abcdabcd").length + 1 ∧
        vecGet hs (((2 : Nat) : Int) + ((3 : Nat) : Int)) = .ok v ∧
        (substr (str "abcdabcd") ((2 : Nat) : Int) ((3 : Nat) : Int) >>=
          computeHash ⟨103, 31, [7, 7]⟩) = .ok v :=
  ⟨by decide, by decide, by decide, by decide, by decide,
    precomputeHashes_entry_shifted ⟨103, 31, [7, 7]⟩ (str "abcdabcd") 3 2
      (by decide) (by decide) (by decide) (by decide) (by decide)⟩

/-- C2. On a freshly constructed default hasher (prime 101, base 256), for
every text of 7-bit characters, every `L` with `1 ≤ L ≤ len` and every offset
`i` with `i ≤ len - L`, `precomputeHashes(text, L)` returns, and the entry at
index `i + L` of the result equals `computeHash(text.substr(i, L))`. -/
theorem precomputeHashes_default_rolling_eq_scratch (text : List Int) (L i : Nat)
    (h7 : SevenBit text) (hL : 1 ≤ L) (hLn : L ≤ text.length) (hi : i ≤ text.length - L) :
    ∃ hs rk' v, precomputeHashes defaultHasher text (L : Int) = .ok (hs, rk') ∧
      vecGet hs ((i : Int) + (L : Int)) = .ok v ∧
      (substr text (i : Int) (L : Int) >>= computeHash defaultHasher) = .ok v := by
  obtain ⟨hs, v, hrun, _, hget, hsub⟩ :=
    precomputeHashes_entry noOverflow_default h7 hL (show i + L ≤ text.length by omega)
  exact ⟨hs, _, v, hrun, hget, hsub⟩

/-- C2 at `"abcdabcd"`, `L = 4`, offset `1`; the values there: index 4 holds
`11`, the hash of `"abcd"`, and index 5 holds `54`, the hash of `"bcda"`. -/
theorem precomputeHashes_default_rolling_eq_scratch_witness :
    (SevenBit (str "abcdabcd") ∧ 1 ≤ 4 ∧ 4 ≤ (str "abcdabcd").length ∧
      1 ≤ (str "abcdabcd").length - 4 ∧
      ∃ hs rk' v, precomputeHashes defaultHasher (str "abcdabcd") ((4 : Nat) : Int) =
          .ok (hs, rk') ∧
        vecGet hs (((1 : Nat) : Int) + ((4 : Nat) : Int)) = .ok v ∧
        (substr (str "abcdabcd") ((1 : Nat) : Int) ((4 : Nat) : Int) >>=
          computeHash defaultHasher) = .ok v) ∧
    (precomputeHashes defaultHasher (str "abcdabcd") 4).map Prod.fst =
      .ok [0, 0, 0, 0, 11, 54, 87, 85, 11] ∧
    computeHash defaultHasher (str "abcd") = .ok 11 ∧
    computeHash defaultHasher (str "bcda") = .ok 54 :=
  ⟨⟨by decide, by decide, by decide, by decide,
      precomputeHashes_default_rolling_eq_scratch (str "abcdabcd") 4 1
        (by decide) (by decide) (by decide) (by decide)⟩,
    by decide, by decide, by decide⟩
/-! ## Detection -/

/-- C3 fails on the code: `detectPlagiarism("abcd", "abab", 2)` reports one
detection, with `startIdx = 2` and printed position `2`, although
`doc1[2, 4) = "cd"` and `doc2[2, 4) = "ab"` differ. The detection rests on
`detectCollision(paper2, 2, 4, 84, 2)`, which compares the hash of `"ab"` in
document 2 with the hash read from document 2's own buffer. -/
theorem detectPlagiarism_reports_unequal_windows :
    detectPlagiarism (str "abcd") (str "abab") 2 = .ok [(2, 2)] ∧
      substr (str "abcd") 2 2 = .ok (str "cd") ∧
      substr (str "abab") 2 2 = .ok (str "ab") ∧
      str "cd" ≠ str "ab" ∧
      (precomputeHashes defaultHasher (str "abab") 2).map Prod.fst = .ok [0, 0, 84, 36, 84] ∧
      detectCollision defaultHasher (str "abab") 2 4 84 2 = .ok true := by
  decide

/-- C4 fails on the code: `detectPlagiarism("ab", "ab", 2)` reports nothing,
although the windows at offsets `(0, 0)` are equal. The loops read the hash
buffers at index `i`, where the buffer of `precomputeHashes` holds `0`; the hash
of the window at offset `0` is at index `2`. -/
theorem detectPlagiarism_misses_equal_windows :
    detectPlagiarism (str "ab") (str "ab") 2 = .ok [] ∧
      substr (str "ab") 0 2 = .ok (str "ab") ∧
      (precomputeHashes defaultHasher (str "ab") 2).map Prod.fst = .ok [0, 0, 84] := by
  decide

/-- C5, as stated, fails: for the two `char` values `101, -1` the polynomial is
`101 · 256 - 1 = 25855`, which is `100` modulo `101`, while `computeHash`
returns `-1` (`%` takes the sign of the dividend). -/
theorem computeHash_polynomial_counterexample :
    IsText [101, -1] ∧ computeHash defaultHasher [101, -1] = .ok (-1) ∧
      specPolynomialHash 101 256 [101, -1] = 100 := by
  decide

/-- C5, amended. For every string `s` of 7-bit characters, `computeHash(s)` on
the default hasher (prime 101, base 256) equals
`(Σ_{k < len} s[k] · 256^(len-1-k)) mod 101`, the value Horner's iteration
`hash = (hash · 256 + s[k]) mod 101` computes; the empty string hashes to `0`,
`"abc"` to `90` and `"abcd"` to `11`. -/
theorem computeHash_polynomial (s : List Int) (h7 : SevenBit s) :
    computeHash defaultHasher s = .ok (specPolynomialHash 101 256 s) ∧
      specPolynomialHash 101 256 s = specHornerHash 101 256 s ∧
      computeHash defaultHasher [] = .ok 0 ∧
      computeHash defaultHasher (str "abc") = .ok 90 ∧
      computeHash defaultHasher (str "abcd") = .ok 11 := by
  have hov := noOverflow_default
  have e1 : hashVal defaultHasher s = specPolynomialHash 101 256 s := by
    rw [hashVal_eq hov h7]
    unfold specPolynomialHash
    rw [sum_eq_horner]
    rfl
  have e2 : hashVal defaultHasher s = specHornerHash 101 256 s :=
    foldl_specHorner hov s h7 0 (le_refl _) (by decide)
  refine ⟨?_, ?_, by decide, by decide, by decide⟩
  · rw [computeHash_ok hov.goodPrime, e1]
  · rw [← e1, e2]

/-- C5, amended, at `"abcd"`. -/
theorem computeHash_polynomial_witness :
    SevenBit (str "abcd") ∧
      (computeHash defaultHasher (str "abcd") = .ok (specPolynomialHash 101 256 (str "abcd")) ∧
        specPolynomialHash 101 256 (str "abcd") = specHornerHash 101 256 (str "abcd") ∧
        computeHash defaultHasher [] = .ok 0 ∧
        computeHash defaultHasher (str "abc") = .ok 90 ∧
        computeHash defaultHasher (str "abcd") = .ok 11) ∧
      specPolynomialHash 101 256 (str "abcd") = 11 :=
  ⟨by decide, computeHash_polynomial (str "abcd") (by decide), by decide⟩

/-- C6. For every text, every `start` and `length` with
`start + length ≤ len(text)` and every expected hash `h`,
`detectCollision(text, start, end, h, length)` is `computeHash` of
`text[start, start + length)` compared with `h`: it returns `true` exactly when
that hash, recomputed from the text, equals `h`, and it returns whenever the
modulus is one on which `%` is defined. -/
theorem detectCollision_iff_recomputed_hash (rk : RabinKarp) (text : List Int)
    (start length : Nat) (stop h : Int) (hb : start + length ≤ text.length) :
    detectCollision rk text start stop h length =
        (computeHash rk ((text.drop start).take length)).map (fun v => decide (v = h)) ∧
      (detectCollision rk text start stop h length = .ok true ↔
        computeHash rk ((text.drop start).take length) = .ok h) ∧
      (GoodPrime rk → ∃ b, detectCollision rk text start stop h length = .ok b) := by
  have e : detectCollision rk text start stop h length =
      (computeHash rk ((text.drop start).take length)).map (fun v => decide (v = h)) := by
    unfold detectCollision
    rw [substr_ok text length (by omega), bind_ok]
    cases computeHash rk ((text.drop start).take length) <;> rfl
  refine ⟨e, ?_, ?_⟩
  · rw [e]
    cases hc : computeHash rk ((text.drop start).take length) with
    | error err => simp [Except.map]
    | ok v => simp [Except.map]
  · intro hp
    rw [e, computeHash_ok hp]
    exact ⟨_, rfl⟩

/-- C6 at `"abcdabcd"`, `start = 1`, `length = 4`, expected hash `54`. -/
theorem detectCollision_iff_recomputed_hash_witness :
    1 + 4 ≤ (str "abcdabcd").length ∧
      (detectCollision defaultHasher (str "abcdabcd") ((1 : Nat) : Int) 5 54 ((4 : Nat) : Int) =
          (computeHash defaultHasher (((str "abcdabcd").drop 1).take 4)).map
            (fun v => decide (v = 54)) ∧
        (detectCollision defaultHasher (str "abcdabcd") ((1 : Nat) : Int) 5 54 ((4 : Nat) : Int) =
            .ok true ↔
          computeHash defaultHasher (((str "abcdabcd").drop 1).take 4) = .ok 54) ∧
        (GoodPrime defaultHasher →
          ∃ b, detectCollision defaultHasher (str "abcdabcd") ((1 : Nat) : Int) 5 54
            ((4 : Nat) : Int) = .ok b)) ∧
      detectCollision defaultHasher (str "abcdabcd") 1 5 54 4 = .ok true ∧
      detectCollision defaultHasher (str "abcdabcd") 1 5 23 4 = .ok false :=
  ⟨by decide, detectCollision_iff_recomputed_hash defaultHasher (str "abcdabcd") 1 4 5 54
    (by decide), by decide, by decide⟩

/-- C7 fails on the code: for document 1 `"aaa"` and `L = 1` the recorded hashes
are `0, 97, 97, 97`, so the offsets `1` and `2` both have the recorded hash `97`,
and after the index-building loop the bucket under `97` holds offset `2` only:
`hashMap[paper1Hashes[i]] = { i }` replaced the bucket that held offset `1`. -/
theorem buildIndex_overwrites_bucket :
    (precomputeHashes defaultHasher (str "aaa") 1).map Prod.fst = .ok [0, 97, 97, 97] ∧
      buildIndex (str "aaa") [0, 97, 97, 97] 1 = .ok [(97, [2]), (0, [0])] ∧
      HashMap.find [(97, [2]), (0, [0])] 97 = some [2] ∧
      indexStep [0, 97, 97, 97] [(0, [0])] 1 = .ok [(97, [1]), (0, [0])] ∧
      indexStep [0, 97, 97, 97] [(97, [1]), (0, [0])] 2 = .ok [(97, [2]), (0, [0])] := by
  decide

/-- C8 fails on the code: `precomputeHashes("ab", 3)` does not return an empty
sequence; after reading `text[2]` (the terminator) the write `prefixHashes[3]`
is outside the three entries of the buffer. -/
theorem precomputeHashes_window_too_long_example :
    precomputeHashes defaultHasher (str "ab") 3 = .error .outOfBounds ∧
      resize defaultHasher.prefixHashes ((str "ab").length + 1) = [0, 0, 0] ∧
      vecSet [0, 0, 0] 3 60 = .error .outOfBounds := by
  decide

/-! ## Window lengths that are not positive, and the member buffer -/

/-- C9, as stated, fails: with window length `0` nothing is rejected.
`precomputeHashes("ab", 0)` returns the three entries `0, 10, 93`, and
`detectPlagiarism("ab", "ab", 0)` returns a detection at position `0`. -/
theorem zero_window_length_counterexample :
    precomputeHashes defaultHasher (str "ab") 0 = .ok ([0, 10, 93], ⟨101, 256, [0, 10, 93]⟩) ∧
      detectPlagiarism (str "ab") (str "ab") 0 = .ok [(0, 0)] := by
  decide

/-- C9, amended. The code has no check of the window length. For window length
`0`, every text and every hasher on whose modulus `%` is defined,
`precomputeHashes(text, 0)` signals no error: it returns a sequence of
`len(text) + 1` entries whose entry `0` is `0`; and for all documents
`detectPlagiarism(paper1, paper2, 0)` returns a list of detections. -/
theorem zero_window_length_returns (rk : RabinKarp) (text paper1 paper2 : List Int)
    (hp : GoodPrime rk) :
    (∃ hs, precomputeHashes rk text 0 = .ok (hs, ⟨rk.prime, rk.base, hs⟩) ∧
      hs.length = text.length + 1 ∧ vecGet hs 0 = .ok 0) ∧
    (∃ ds, detectPlagiarism paper1 paper2 0 = .ok ds) := by
  constructor
  · obtain ⟨hs, hrun, hlen, hget⟩ := precomputeHashes_ok hp text 0 (Nat.zero_le _)
    refine ⟨hs, hrun, hlen, ?_⟩
    have h0 := hget 0
    rw [if_pos ⟨le_refl _, Nat.zero_le _⟩] at h0
    have e : vecGet hs ((0 : Nat) : Int) = .ok (hs.getD 0 0) := vecGet_ok (by omega)
    rw [List.getD_eq_getElem?_getD, h0] at e
    exact e
  · exact detectPlagiarism_ok paper1 paper2 0 (Nat.zero_le _) (Nat.zero_le _)

/-- C9, amended, at the default hasher and the text `"ab"`. -/
theorem zero_window_length_returns_witness :
    GoodPrime defaultHasher ∧
      (∃ hs, precomputeHashes defaultHasher (str "ab") 0 = .ok (hs, ⟨101, 256, hs⟩) ∧
        hs.length = (str "ab").length + 1 ∧ vecGet hs 0 = .ok 0) ∧
      (∃ ds, detectPlagiarism (str "ab") (str "ab") 0 = .ok ds) :=
  ⟨goodPrime_PRIME1 256 [],
    zero_window_length_returns defaultHasher (str "ab") (str "ab") (str "ab")
      (goodPrime_PRIME1 256 [])⟩

/-- C10, as stated, fails for `precomputeHashes`: on one hasher, the call
`precomputeHashes("abcd", 2)` returns `0, 0, 84, 38, 93` when the hasher is
fresh and `0, 97, 84, 38, 93` after a call `precomputeHashes("abcd", 1)`, whose
entry at index `1` is still in the member buffer. -/
theorem precomputeHashes_depends_on_earlier_calls :
    ∃ rk1 rk2 rk3,
      precomputeHashes defaultHasher (str "abcd") 2 = .ok ([0, 0, 84, 38, 93], rk1) ∧
      precomputeHashes rk1 (str "abcd") 1 = .ok ([0, 97, 98, 99, 100], rk2) ∧
      precomputeHashes rk2 (str "abcd") 2 = .ok ([0, 97, 84, 38, 93], rk3) ∧
      [0, 0, 84, 38, 93] ≠ [0, 97, 84, 38, 93] :=
  ⟨⟨101, 256, [0, 0, 84, 38, 93]⟩, ⟨101, 256, [0, 97, 98, 99, 100]⟩,
    ⟨101, 256, [0, 97, 84, 38, 93]⟩, by decide, by decide, by decide, by decide⟩

/-- C10, amended. `computeHash(s)` depends only on `s` and `(p, b)`. For
`precomputeHashes(text, L)`, whether the call returns, the length of the
returned sequence and its entries from index `L` on depend only on `text`, `L`
and `(p, b)`; a returned sequence has `len(text) + 1` entries, and its entries
below index `L` are those the member buffer held before the call, cut or
zero-filled to `len(text) + 1` entries. -/
theorem hashes_depend_on_arguments (p b : Int) (buf buf' s text : List Int) (L : Int) :
    computeHash ⟨p, b, buf⟩ s = computeHash ⟨p, b, buf'⟩ s ∧
    (precomputeHashes ⟨p, b, buf⟩ text L).map (fun r => (r.1.length, r.1.drop L.toNat)) =
      (precomputeHashes ⟨p, b, buf'⟩ text L).map (fun r => (r.1.length, r.1.drop L.toNat)) ∧
    (∀ hs rk', precomputeHashes ⟨p, b, buf⟩ text L = .ok (hs, rk') →
      hs.length = text.length + 1 ∧
        hs.take L.toNat = (resize buf (text.length + 1)).take L.toNat) := by
  refine ⟨rfl, precomputeHashes_drop_eq p b buf buf' text L, ?_⟩
  intro hs rk' hrun
  obtain ⟨h1, _, h3⟩ := precomputeHashes_take_eq ⟨p, b, buf⟩ text L hs rk' hrun
  exact ⟨h1, h3⟩

/-- C10, amended, at prime `101`, base `256`, an empty buffer and the buffer
`0, 97, 98, 99, 100`, for `precomputeHashes("abcd", 2)`. -/
theorem hashes_depend_on_arguments_witness :
    (precomputeHashes ⟨101, 256, []⟩ (str "abcd") 2).map (fun r => (r.1.length, r.1.drop 2)) =
      .ok (5, [84, 38, 93]) ∧
    (precomputeHashes ⟨101, 256, [0, 97, 98, 99, 100]⟩ (str "abcd") 2).map
      (fun r => (r.1.length, r.1.drop 2)) = .ok (5, [84, 38, 93]) ∧
    [0, 97, 84, 38, 93].take 2 = (resize [0, 97, 98, 99, 100] ((str "abcd").length + 1)).take 2 :=
  ⟨by decide, by decide,
    ((hashes_depend_on_arguments 101 256 [0, 97, 98, 99, 100] [] (str "abcd") (str "abcd") 2).2.2
      [0, 97, 84, 38, 93] ⟨101, 256, [0, 97, 84, 38, 93]⟩ (by decide)).2⟩

/-! ## Shape and range of the hash sequence -/

/-- C11, as stated, fails: for `"abcdabcd"` (`n = 8`) and `L = 4` the sequence
`precomputeHashes` returns has `9` entries, not `n - L + 1 = 5`. -/
theorem precomputeHashes_length_counterexample :
    (precomputeHashes defaultHasher (str "abcdabcd") 4).map (fun r => r.1.length) = .ok 9 ∧
      (str "abcdabcd").length - 4 + 1 = 5 := by
  decide

/-- C11, amended. For every document of length `n`, every `L` with `L ≤ n`
(so every `L` with `1 ≤ L ≤ n`) and every hasher on whose modulus `%` is
defined, the sequence returned by `precomputeHashes` has exactly `n + 1`
entries; the `n - L + 1` entries from index `L` on are the ones the call
writes. -/
theorem precomputeHashes_length (rk : RabinKarp) (text : List Int) (L : Nat)
    (hp : GoodPrime rk) (hLn : L ≤ text.length) :
    ∃ hs rk', precomputeHashes rk text (L : Int) = .ok (hs, rk') ∧
      hs.length = text.length + 1 ∧ (hs.drop L).length = text.length - L + 1 := by
  obtain ⟨hs, hrun, hlen, _⟩ := precomputeHashes_ok hp text L hLn
  refine ⟨hs, _, hrun, hlen, ?_⟩
  rw [List.length_drop, hlen]
  omega

/-- C11, amended, at the default hasher, `"abcdabcd"` and `L = 4`. -/
theorem precomputeHashes_length_witness :
    GoodPrime defaultHasher ∧ 4 ≤ (str "abcdabcd").length ∧
      ∃ hs rk', precomputeHashes defaultHasher (str "abcdabcd") ((4 : Nat) : Int) = .ok (hs, rk') ∧
        hs.length = (str "abcdabcd").length + 1 ∧
        (hs.drop 4).length = (str "abcdabcd").length - 4 + 1 :=
  ⟨goodPrime_PRIME1 256 [], by decide,
    precomputeHashes_length defaultHasher (str "abcdabcd") 4 (goodPrime_PRIME1 256 [])
      (by decide)⟩

/-- C12 fails on the code: with `char` values below zero the stored hashes
leave `[0, 101)`. For the text `97, -61, -87` (`"a"` and the two bytes of a
UTF-8 `"é"`) and `L = 1` the rolling steps store `-61` and `-87`; for the text
`-61, -87, 97` and `L = 2` the first-window hash is `-48`. The step
`(hashValue * base + text[i]) % prime` keeps the sign of a negative dividend;
only the subtraction before it is followed by `+ prime`. -/
theorem precomputeHashes_negative_hash :
    IsText [97, -61, -87] ∧
      (precomputeHashes defaultHasher [97, -61, -87] 1).map Prod.fst = .ok [0, 97, -61, -87] ∧
      IsText [-61, -87, 97] ∧
      (precomputeHashes defaultHasher [-61, -87, 97] 2).map Prod.fst = .ok [0, 0, -48, 45] := by
  decide

set_option maxRecDepth 10000 in
/-- C14 fails on the code: for the two test documents and window length `15`
the only detection has `startIdx = 28` and printed position `13`; no detection
is reported at document-2 position `28`, although the windows of both
documents at offset `28` are equal. -/
theorem detectPlagiarism_test_documents :
    detectPlagiarism
        (str "This is a simple test. The quick brown fox jumps over the lazy dog.")
        (str "This is a simple test. The quick brown fox jumps over a lazy dog.") 15 =
      .ok [(28, 13)] ∧
    printedPositions
        (str "This is a simple test. The quick brown fox jumps over the lazy dog.")
        (str "This is a simple test. The quick brown fox jumps over a lazy dog.") 15 =
      .ok [13] ∧
    substr (str "This is a simple test. The quick brown fox jumps over the lazy dog.") 28 15 =
      substr (str "This is a simple test. The quick brown fox jumps over a lazy dog.") 28 15 := by
  decide

/-- C15 fails on the code: on the default hasher and the text `"abcdabcd"`,
`detectCollision(text, 0, 4, 50, 4)` returns `false`, because the hash of
`"abcd"` is `11`, not `50`; `detectCollision(text, 1, 5, 23, 4)` returns `false`
as asserted. -/
theorem detectCollision_test_values :
    detectCollision defaultHasher (str "abcdabcd") 0 4 50 4 = .ok false ∧
      detectCollision defaultHasher (str "abcdabcd") 1 5 23 4 = .ok false ∧
      (substr (str "abcdabcd") 0 4 >>= computeHash defaultHasher) = .ok 11 ∧
      detectCollision defaultHasher (str "abcdabcd") 0 4 11 4 = .ok true := by
  decide

/-- C19. For every text, every `L` with `L ≤ len(text)` (so every `L` with
`1 ≤ L ≤ len(text)`) and every hasher, each index `precomputeHashes` uses is in
bounds: the first loop reads `text[i]` for `i < L`, a character of the text; the
write `prefixHashes[L]` is inside the `len + 1` entries of the buffer; the
second loop, for `i` from `L` to `len - 1`, reads the characters `text[i - L]`
and `text[i]` and writes `prefixHashes[i + 1]` inside the buffer. So no run ends
in an out-of-range access, and the call returns when `%` is defined on the
modulus. -/
theorem precomputeHashes_indices_in_bounds (rk : RabinKarp) (text : List Int) (L : Nat)
    (hLn : L ≤ text.length) :
    (∀ i ∈ List.range L, i < text.length ∧ charAt text (i : Int) = .ok (text.getD i 0)) ∧
    (L < text.length + 1 ∧ ∀ x, vecSet (resize rk.prefixHashes (text.length + 1)) (L : Int) x =
      .ok ((resize rk.prefixHashes (text.length + 1)).set L x)) ∧
    (∀ i ∈ List.range' L (text.length - L),
      (∃ k : Nat, (i : Int) - (L : Int) = (k : Int) ∧ k < text.length ∧
        charAt text ((i : Int) - (L : Int)) = .ok (text.getD k 0)) ∧
      (i < text.length ∧ charAt text (i : Int) = .ok (text.getD i 0)) ∧
      (i + 1 < text.length + 1 ∧ ∀ (buf : List Int) (x : Int), buf.length = text.length + 1 →
        vecSet buf ((i : Int) + 1) x = .ok (buf.set (i + 1) x))) ∧
    precomputeHashes rk text (L : Int) ≠ .error .outOfBounds ∧
    (GoodPrime rk → ∃ hs rk', precomputeHashes rk text (L : Int) = .ok (hs, rk')) := by
  refine ⟨?_, ⟨by omega, fun x => vecSet_ok (by rw [length_resize]; omega) x⟩, ?_,
    precomputeHashes_noOOB rk text L hLn, ?_⟩
  · intro i hi
    rw [List.mem_range] at hi
    exact ⟨by omega, charAt_ok (by omega)⟩
  · intro i hi
    rw [List.mem_range'_1] at hi
    refine ⟨⟨i - L, by omega, by omega, ?_⟩, ⟨by omega, charAt_ok (by omega)⟩, by omega, ?_⟩
    · rw [show (i : Int) - (L : Int) = ((i - L : Nat) : Int) by omega]
      exact charAt_ok (by omega)
    · intro buf x hbuf
      rw [show (i : Int) + 1 = ((i + 1 : Nat) : Int) by omega]
      exact vecSet_ok (by omega) x
  · intro hp
    obtain ⟨hs, hrun, _⟩ := precomputeHashes_ok hp text L hLn
    exact ⟨hs, _, hrun⟩

/-- C19 at the default hasher, `"abcdabcd"` and `L = 4`. -/
theorem precomputeHashes_indices_in_bounds_witness :
    4 ≤ (str "abcdabcd").length ∧
      precomputeHashes defaultHasher (str "abcdabcd") ((4 : Nat) : Int) ≠ .error .outOfBounds ∧
      (∀ i ∈ List.range' 4 ((str "abcdabcd").length - 4),
        i + 1 < (str "abcdabcd").length + 1) :=
  ⟨by decide,
    (precomputeHashes_indices_in_bounds defaultHasher (str "abcdabcd") 4 (by decide)).2.2.2.1,
    fun i hi =>
      ((precomputeHashes_indices_in_bounds defaultHasher (str "abcdabcd") 4 (by decide)).2.2.1
        i hi).2.2.1⟩

/-- C20. For every prime `p ≥ 2` and base `b ≥ 1` with
`(p - 1) * b + 127 ≤ 2^31 - 1` and `127 * (p - 1) ≤ 2^31 - 1` and all texts of
7-bit characters: a hash value `h` and a base power `bp` in `[0, p)` and 7-bit
characters `c`, `out` give `h * b`, `h * b + c`, `bp * b`, `out * bp`, `h - t`
and `h - t + p` inside the signed 32-bit range; the values `hashValue` and
`basePower` take in the loops of `computeHash` and `precomputeHashes`, and the
hashes stored, are in `[0, p)`; and `computeHash` and `precomputeHashes` with
32-bit wrap-around return what they return in exact integer arithmetic. -/
theorem wraparound_eq_exact (rk : RabinKarp) (s text : List Int)
    (hp : 2 ≤ rk.prime) (hb : 1 ≤ rk.base)
    (h1 : (rk.prime - 1) * rk.base + 127 ≤ 2147483647)
    (h2 : 127 * (rk.prime - 1) ≤ 2147483647) (hs : SevenBit s) (ht : SevenBit text) :
    (∀ h c : Int, 0 ≤ h → h < rk.prime → 0 ≤ c → c ≤ 127 →
      InInt32 (h * rk.base) ∧ InInt32 (h * rk.base + c)) ∧
    (∀ bp : Int, 0 ≤ bp → bp < rk.prime → InInt32 (bp * rk.base)) ∧
    (∀ out bp : Int, 0 ≤ out → out ≤ 127 → 0 ≤ bp → bp < rk.prime → InInt32 (out * bp)) ∧
    (∀ h t : Int, 0 ≤ h → h < rk.prime → 0 ≤ t → t < rk.prime →
      InInt32 (h - t) ∧ InInt32 (h - t + rk.prime)) ∧
    (∀ k : Nat, ∃ v, computeHash rk (s.take k) = .ok v ∧ 0 ≤ v ∧ v < rk.prime) ∧
    (∀ L k : Nat, k ≤ L → L ≤ text.length →
      ∃ h bp, (List.range k).foldlM (firstWindowStep rk text (L : Int)) (0, 1) = .ok (h, bp) ∧
        (0 ≤ h ∧ h < rk.prime) ∧ (0 ≤ bp ∧ bp < rk.prime)) ∧
    (∀ L : Nat, 1 ≤ L → L ≤ text.length →
      ∃ hs rk', precomputeHashes rk text (L : Int) = .ok (hs, rk') ∧
        ∀ k : Nat, L ≤ k → k ≤ text.length →
          ∃ v, vecGet hs (k : Int) = .ok v ∧ 0 ≤ v ∧ v < rk.prime) ∧
    computeHash rk s = computeHashExact rk s ∧
    (∀ L : Int, precomputeHashes rk text L = precomputeHashesExact rk text L) := by
  have hov : NoOverflow rk := ⟨hp, by omega, h1, h2⟩
  refine ⟨fun h c a b c0 c1 => step_in_range hov a b c0 c1,
    fun bp a b => basePower_in_range hov a b,
    fun out bp a b c d => out_in_range hov a b c d,
    fun h t a b c d => sub_in_range hov a b c d, ?_, ?_,
    fun L hL hLn => stored_hash_range hov ht hL hLn,
    computeHash_eq_exact hov s hs 0 (le_refl _) (by omega),
    fun L => precomputeHashes_eq_exact hov ht L⟩
  · intro k
    exact ⟨_, computeHash_ok hov.goodPrime _, hashVal_range hov (hs.take k)⟩
  · intro L k hk hLn
    exact ⟨_, _, firstLoop_ok hov.goodPrime text L k hk (by omega),
      hashVal_range hov (ht.take k), basePowerVal_range hov _⟩

/-- C20 at the default hasher (`p = 101`, `b = 256`) and the text `"abcdabcd"`. -/
theorem wraparound_eq_exact_witness :
    (2 ≤ defaultHasher.prime ∧ 1 ≤ defaultHasher.base ∧
      (defaultHasher.prime - 1) * defaultHasher.base + 127 ≤ 2147483647 ∧
      127 * (defaultHasher.prime - 1) ≤ 2147483647 ∧ SevenBit (str "abcdabcd")) ∧
    computeHash defaultHasher (str "abcdabcd") = computeHashExact defaultHasher (str "abcdabcd") ∧
    (∀ L : Int, precomputeHashes defaultHasher (str "abcdabcd") L =
      precomputeHashesExact defaultHasher (str "abcdabcd") L) ∧
    precomputeHashesExact defaultHasher (str "abcdabcd") 4 =
      .ok ([0, 0, 0, 0, 11, 54, 87, 85, 11], ⟨101, 256, [0, 0, 0, 0, 11, 54, 87, 85, 11]⟩) :=
  ⟨by decide,
    (wraparound_eq_exact defaultHasher (str "abcdabcd") (str "abcdabcd") (by decide) (by decide)
      (by decide) (by decide) (by decide) (by decide)).2.2.2.2.2.2.2.1,
    (wraparound_eq_exact defaultHasher (str "abcdabcd") (str "abcdabcd") (by decide) (by decide)
      (by decide) (by decide) (by decide) (by decide)).2.2.2.2.2.2.2.2,
    by decide⟩

/-! ## Order and content of the detections -/

/-- C13. For every pair of documents and every `L` with
`L ≤ min(len(doc1), len(doc2))` (so every `L` with
`1 ≤ L ≤ min(len(doc1), len(doc2))`), `detectPlagiarism` returns its detections
`(i, j)` in non-decreasing order of the document-2 position `j`, and detections
with the same `j` in non-decreasing order of the document-1 offset `i`; in fact
each position `j` is reported at most once, so `j` increases strictly. -/
theorem detections_ordered (paper1 paper2 : List Int) (L : Nat)
    (h1 : L ≤ paper1.length) (h2 : L ≤ paper2.length) :
    ∃ ds, detectPlagiarism paper1 paper2 (L : Int) = .ok ds ∧
      ds.Pairwise (fun a b => a.2 < b.2 ∨ (a.2 = b.2 ∧ a.1 ≤ b.1)) ∧
      ds.Pairwise (fun a b => a.2 < b.2) := by
  obtain ⟨hs1, hs2, m, _, _, _, _, hfind, hrun⟩ := detectPlagiarism_eq paper1 paper2 L h1 h2
  have hp := pairwise_detections ⟨PRIME1, 256, hs2⟩ paper2 hs2 m L
    (detectionsAt_cases ⟨PRIME1, 256, hs2⟩ paper2 hs2 hs1 m L _ hfind)
    (List.range (paper2.length - L + 1)) (List.pairwise_lt_range _)
  exact ⟨_, hrun, hp.imp (fun h => Or.inl h), hp⟩

/-- C13 at `"aaa"`, `"aaa"` and `L = 1`, where the detections are `(2, 1), (2, 2)`. -/
theorem detections_ordered_witness :
    1 ≤ (str "aaa").length ∧
      (∃ ds, detectPlagiarism (str "aaa") (str "aaa") ((1 : Nat) : Int) = .ok ds ∧
        ds.Pairwise (fun a b => a.2 < b.2 ∨ (a.2 = b.2 ∧ a.1 ≤ b.1)) ∧
        ds.Pairwise (fun a b => a.2 < b.2)) ∧
      detectPlagiarism (str "aaa") (str "aaa") 1 = .ok [(2, 1), (2, 2)] :=
  ⟨by decide, detections_ordered (str "aaa") (str "aaa") 1 (by decide) (by decide), by decide⟩

/-- C18. For all 7-bit documents `paper1`, `paper2`, every `L` with
`1 ≤ L ≤ min(len(paper1), len(paper2))` and every position `j` with
`j ≤ len(paper2) - L`: the two calls of `precomputeHashes` and
`detectPlagiarism` return; the value `v` at raw index `j` of `paper2`'s hash
buffer is `0` for `j < L` and the hash of `paper2`'s window starting at `j - L`
for `j ≥ L`; position `j` is reported exactly when `v` occurs among the values
at raw indices `0 .. len(paper1) - L` of `paper1`'s hash buffer and
`computeHash(paper2.substr(j, L)) == v`; and a document `paper1'` with the same
set of values at its raw indices `0 .. len(paper1') - L` gives the same answer
for `j`. -/
theorem detectPlagiarism_reports_iff (paper1 paper2 : List Int) (L j : Nat)
    (h7a : SevenBit paper1) (h7b : SevenBit paper2) (hL : 1 ≤ L) (h1 : L ≤ paper1.length)
    (h2 : L ≤ paper2.length) (hj : j ≤ paper2.length - L) :
    ∃ hs1 rk1 hs2 rk2 ds v,
      precomputeHashes (RabinKarp.new PRIME1 256) paper1 (L : Int) = .ok (hs1, rk1) ∧
      precomputeHashes rk1 paper2 (L : Int) = .ok (hs2, rk2) ∧
      detectPlagiarism paper1 paper2 (L : Int) = .ok ds ∧
      vecGet hs2 (j : Int) = .ok v ∧
      (j < L → v = 0) ∧
      (L ≤ j →
        (substr paper2 ((j - L : Nat) : Int) (L : Int) >>= computeHash defaultHasher) = .ok v) ∧
      ((j : Int) ∈ ds.map Prod.snd ↔
        (∃ i : Nat, i ≤ paper1.length - L ∧ vecGet hs1 (i : Int) = .ok v) ∧
        (substr paper2 (j : Int) (L : Int) >>= computeHash defaultHasher) = .ok v) ∧
      (∀ (paper1' hs1' : List Int) (rk1' : RabinKarp) (ds' : List (Int × Int)),
        SevenBit paper1' → L ≤ paper1'.length →
        precomputeHashes (RabinKarp.new PRIME1 256) paper1' (L : Int) = .ok (hs1', rk1') →
        detectPlagiarism paper1' paper2 (L : Int) = .ok ds' →
        (∀ x : Int, (∃ i : Nat, i ≤ paper1.length - L ∧ vecGet hs1 (i : Int) = .ok x) ↔
          (∃ i : Nat, i ≤ paper1'.length - L ∧ vecGet hs1' (i : Int) = .ok x)) →
        ((j : Int) ∈ ds.map Prod.snd ↔ (j : Int) ∈ ds'.map Prod.snd)) := by
  obtain ⟨hs1, hs2, ds, r1, r2, _, _, _, _, hrun, _⟩ :=
    detectPlagiarism_sevenBit h7a h7b hL h1 h2
  obtain ⟨hv, hiff⟩ := reports_iff_buffers h7a h7b hL h1 h2 hj r1 r2 hrun
  refine ⟨hs1, _, hs2, _, ds, rawHash paper2 L j, r1, r2, hrun, hv, fun h => rawHash_lt _ h,
    ?_, hiff, ?_⟩
  · intro hLj
    rw [confirm_iff paper2 (by omega)]
    unfold rawHash
    rw [if_neg (by omega)]
  · intro paper1' hs1' rk1' ds' h7' h1' r1' hrun' hset
    obtain ⟨hs1'', hs2'', ds'', q1, q2, _, _, _, _, qrun, _⟩ :=
      detectPlagiarism_sevenBit h7' h7b hL h1' h2
    have e1 := q1.symm.trans r1'
    cases e1
    have e3 := qrun.symm.trans hrun'
    cases e3
    obtain ⟨_, hiff'⟩ := reports_iff_buffers h7' h7b hL h1' h2 hj q1 q2 qrun
    rw [hiff, hiff', hset]

/-- C18 at `"abcd"`, `"abab"`, `L = 2` and position `2`, which is reported. -/
theorem detectPlagiarism_reports_iff_witness :
    (SevenBit (str "abcd") ∧ SevenBit (str "abab") ∧ 1 ≤ 2 ∧ 2 ≤ (str "abcd").length ∧
      2 ≤ (str "abab").length ∧ 2 ≤ (str "abab").length - 2) ∧
    (∃ hs1 rk1 hs2 rk2 ds v,
      precomputeHashes (RabinKarp.new PRIME1 256) (str "abcd") ((2 : Nat) : Int) =
        .ok (hs1, rk1) ∧
      precomputeHashes rk1 (str "abab") ((2 : Nat) : Int) = .ok (hs2, rk2) ∧
      detectPlagiarism (str "abcd") (str "abab") ((2 : Nat) : Int) = .ok ds ∧
      vecGet hs2 ((2 : Nat) : Int) = .ok v ∧
      ((2 : Nat) < 2 → v = 0) ∧
      (2 ≤ 2 →
        (substr (str "abab") ((2 - 2 : Nat) : Int) ((2 : Nat) : Int) >>=
          computeHash defaultHasher) = .ok v) ∧
      (((2 : Nat) : Int) ∈ ds.map Prod.snd ↔
        (∃ i : Nat, i ≤ (str "abcd").length - 2 ∧ vecGet hs1 (i : Int) = .ok v) ∧
        (substr (str "abab") ((2 : Nat) : Int) ((2 : Nat) : Int) >>=
          computeHash defaultHasher) = .ok v)) ∧
    detectPlagiarism (str "abcd") (str "abab") 2 = .ok [(2, 2)] := by
  refine ⟨by decide, ?_, by decide⟩
  obtain ⟨hs1, rk1, hs2, rk2, ds, v, a, b, c, d, e, f, g, _⟩ :=
    detectPlagiarism_reports_iff (str "abcd") (str "abab") 2 2 (by decide) (by decide)
      (by decide) (by decide) (by decide) (by decide)
  exact ⟨hs1, rk1, hs2, rk2, ds, v, a, b, c, d, e, f, g⟩

/-! ## The documents of `testScalability` -/

/-- C16. For `doc1` = 100,000 times `'a'` and `doc2` = `doc1` with `'b'` at
offset 50,000, `detectPlagiarism(doc1, doc2, 100)` returns, and reports no
detection at a document-2 position `j` with `49,901 ≤ j ≤ 50,000`, the
positions whose window overlaps offset 50,000. -/
theorem scalability_no_detection_across (j : Nat) (h1 : 49901 ≤ j) (h2 : j ≤ 50000) :
    ∃ ds, detectPlagiarism largeText1 largeText2 100 = .ok ds ∧
      (j : Int) ∉ ds.map Prod.snd ∧ ∀ i : Int, (i, (j : Int)) ∉ ds := by
  obtain ⟨ds, hrun, hiff⟩ := scalability_reported
  have hj : (j : Int) ∉ ds.map Prod.snd := by
    rw [hiff j]
    omega
  refine ⟨ds, hrun, hj, ?_⟩
  intro i hi
  exact hj (List.mem_map.2 ⟨(i, (j : Int)), hi, rfl⟩)

/-- C16 at position `49,950`. -/
theorem scalability_no_detection_across_witness :
    49901 ≤ 49950 ∧ 49950 ≤ 50000 ∧
      ∃ ds, detectPlagiarism largeText1 largeText2 100 = .ok ds ∧
        ((49950 : Nat) : Int) ∉ ds.map Prod.snd ∧ ∀ i : Int, (i, ((49950 : Nat) : Int)) ∉ ds :=
  ⟨by decide, by decide, scalability_no_detection_across 49950 (by decide) (by decide)⟩

/-- C17 fails on the code: `detectPlagiarism(largeText1, largeText2, 100)`
reports position `j` exactly for `j ≤ 49,900` and for `50,101 ≤ j ≤ 99,900`. The
positions `50,001 .. 50,100` are not reported, although their windows lie
entirely after offset 50,000 and equal the windows of `largeText1`: at position
`j` the loop reads `paper2Hashes[j]`, the hash of the window at `j - 100`, which
for these positions contains the `'b'`. -/
theorem scalability_misses_after :
    ∃ ds, detectPlagiarism largeText1 largeText2 100 = .ok ds ∧
      (∀ j : Nat, (j : Int) ∈ ds.map Prod.snd ↔ j ≤ 49900 ∨ (50101 ≤ j ∧ j ≤ 99900)) ∧
      (50001 : Int) ∉ ds.map Prod.snd ∧
      (largeText2.drop 50001).take 100 = (largeText1.drop 50001).take 100 := by
  obtain ⟨ds, hrun, hiff⟩ := scalability_reported
  refine ⟨ds, hrun, hiff, ?_, ?_⟩
  · have h := hiff 50001
    intro hc
    have := h.1 hc
    omega
  · rw [window_largeText2_a (Or.inr ⟨by decide, by decide⟩), window_largeText1 (by decide)]

end RabinKarpSpec
